import Mathlib

/-!
Verification of `tensorflow_probability/python/math/ode/runge_kutta_util.py`.

The module is embedded shallowly over exact rational arithmetic:

* a TensorFlow scalar-or-array value is a `TfVal`: a flat list of rationals
  (`val`) together with a flag `isStatic` recording whether
  `tf.get_static_value` knows the value (Python floats and numpy constants
  are static; placeholder/graph tensors are not);
* a structured state (a `tf.nest` of tensors) is a `Nest`: a finite tree
  whose leaves are flat rational arrays;
* fallible TensorFlow operations (the explicit `raise ValueError`s, the
  structure assertion, elementwise-shape requirements of `tf.add_n` and of
  broadcasting, and the arity requirement of `tf.nest.pack_sequence_as`)
  are modelled with `Except`/`Option`.
-/

set_option autoImplicit false

namespace RungeKuttaUtil

/-- A TensorFlow value as seen by this module: the flat array of entries and
whether `tf.get_static_value` can recover it. A scalar is a singleton array. -/
structure TfVal where
  val : List ℚ
  isStatic : Bool
  deriving DecidableEq, Repr

/-- A statically known (Python float / numpy) scalar constant. -/
def TfVal.const (q : ℚ) : TfVal := ⟨[q], true⟩

/-- Multiplication of a value by a statically known scalar constant
(`-2 * dt` and friends): scales every entry, staticness is preserved
by constant folding. -/
def TfVal.constMul (c : ℚ) (v : TfVal) : TfVal := ⟨v.val.map (fun x => c * x), v.isStatic⟩

/-- `tf.get_static_value`: the value when it is statically known. -/
def get_static_value (v : TfVal) : Option (List ℚ) :=
  if v.isStatic then some v.val else none

/-- `_possibly_nonzero(value)`: `True` when there is no static value,
otherwise `np.all(static_value != 0)`. -/
def possibly_nonzero (v : TfVal) : Bool :=
  match get_static_value v with
  | none => true
  | some static_value => static_value.all (fun x => decide (x ≠ 0))

/-- A `tf.nest` structure of tensors: leaves are flat rational arrays. -/
inductive Nest where
  | tensor : List ℚ → Nest
  | node : List Nest → Nest

instance : Inhabited Nest := ⟨.tensor []⟩

mutual
/-- Boolean equality of nests. -/
def Nest.beq : Nest → Nest → Bool
  | .tensor a, .tensor b => a == b
  | .node xs, .node ys => Nest.beqList xs ys
  | .tensor _, .node _ => false
  | .node _, .tensor _ => false

/-- Pointwise boolean equality of nest lists. -/
def Nest.beqList : List Nest → List Nest → Bool
  | [], [] => true
  | x :: xs, y :: ys => Nest.beq x y && Nest.beqList xs ys
  | [], _ :: _ => false
  | _ :: _, [] => false
end

mutual
theorem Nest.beq_iff : ∀ a b : Nest, Nest.beq a b = true ↔ a = b
  | .tensor a, .tensor b => by rw [Nest.beq]; simp
  | .tensor _, .node _ => by rw [Nest.beq]; simp
  | .node _, .tensor _ => by rw [Nest.beq]; simp
  | .node xs, .node ys => by rw [Nest.beq, Nest.beqList_iff xs ys]; simp

theorem Nest.beqList_iff : ∀ xs ys : List Nest, Nest.beqList xs ys = true ↔ xs = ys
  | [], [] => by rw [Nest.beqList]; simp
  | [], _ :: _ => by rw [Nest.beqList]; simp
  | _ :: _, [] => by rw [Nest.beqList]; simp
  | x :: xs, y :: ys => by
    rw [Nest.beqList, Bool.and_eq_true, Nest.beq_iff x y, Nest.beqList_iff xs ys]
    simp
end

instance : DecidableEq Nest := fun a b =>
  decidable_of_iff (Nest.beq a b = true) (Nest.beq_iff a b)

instance {ε α : Type} [DecidableEq ε] [DecidableEq α] :
    DecidableEq (Except ε α) := fun x y =>
  match x, y with
  | .ok a, .ok b => decidable_of_iff (a = b) (by simp)
  | .error a, .error b => decidable_of_iff (a = b) (by simp)
  | .ok _, .error _ => isFalse (fun h => Except.noConfusion h)
  | .error _, .ok _ => isFalse (fun h => Except.noConfusion h)

mutual
/-- `tf.nest.assert_same_structure` (as a test): equality of the nesting
structure; tensor leaves always match regardless of their shape. -/
def sameStructure : Nest → Nest → Bool
  | .tensor _, .tensor _ => true
  | .node xs, .node ys => sameStructureList xs ys
  | .tensor _, .node _ => false
  | .node _, .tensor _ => false

/-- Pointwise `sameStructure` on children lists. -/
def sameStructureList : List Nest → List Nest → Bool
  | [], [] => true
  | x :: xs, y :: ys => sameStructure x y && sameStructureList xs ys
  | [], _ :: _ => false
  | _ :: _, [] => false
end

mutual
/-- Identical structure and identical leaf shapes: the "structurally
identical states" precondition of the spec's data model. -/
def sameShape : Nest → Nest → Bool
  | .tensor a, .tensor b => a.length == b.length
  | .node xs, .node ys => sameShapeList xs ys
  | .tensor _, .node _ => false
  | .node _, .tensor _ => false

/-- Pointwise `sameShape` on children lists. -/
def sameShapeList : List Nest → List Nest → Bool
  | [], [] => true
  | x :: xs, y :: ys => sameShape x y && sameShapeList xs ys
  | [], _ :: _ => false
  | _ :: _, [] => false
end

mutual
/-- `tf.nest.flatten`: the ordered list of tensor leaves. -/
def flatten : Nest → List (List ℚ)
  | .tensor t => [t]
  | .node xs => flattenList xs

/-- `flatten` over a children list. -/
def flattenList : List Nest → List (List ℚ)
  | [] => []
  | x :: xs => flatten x ++ flattenList xs
end

mutual
/-- One step of `tf.nest.pack_sequence_as`: rebuild `s`'s structure from a
prefix of `flat`, returning the rebuilt nest and the unused suffix;
`none` when `flat` runs out. -/
def packAux : Nest → List (List ℚ) → Option (Nest × List (List ℚ))
  | .tensor _, [] => none
  | .tensor _, f :: fs => some (.tensor f, fs)
  | .node xs, fs =>
    match packListAux xs fs with
    | none => none
    | some (ns, fs') => some (.node ns, fs')

/-- `packAux` over a children list. -/
def packListAux : List Nest → List (List ℚ) → Option (List Nest × List (List ℚ))
  | [], fs => some ([], fs)
  | x :: xs, fs =>
    match packAux x fs with
    | none => none
    | some (n, fs') =>
      match packListAux xs fs' with
      | none => none
      | some (ns, fs'') => some (n :: ns, fs'')
end

/-- `tf.nest.pack_sequence_as(structure, flat_sequence)`: fails unless
`flat_sequence` has exactly as many entries as `structure` has leaves. -/
def pack_sequence_as (s : Nest) (flat : List (List ℚ)) : Option Nest :=
  match packAux s flat with
  | some (n, []) => some n
  | _ => none

/-- Elementwise product `w * s_component` with numpy/TF broadcasting between
two flat arrays: a singleton broadcasts against anything, otherwise the
shapes must agree. -/
def tmul (w c : List ℚ) : Option (List ℚ) :=
  if w.length = 1 then some (c.map (fun x => w.headI * x))
  else if c.length = 1 then some (w.map (fun x => x * c.headI))
  else if w.length = c.length then some (List.zipWith (· * ·) w c)
  else none

/-- Elementwise sum of two equal-shape flat arrays (truncating `zipWith`;
all uses are guarded by the shape checks of `addN`). -/
def addL (a b : List ℚ) : List ℚ := List.zipWith (· + ·) a b

/-- Elementwise scaling of a flat array. -/
def scaleL (c : ℚ) (a : List ℚ) : List ℚ := a.map (fun x => c * x)

/-- `tf.add_n`: requires a non-empty list of identically shaped tensors. -/
def addN (l : List (List ℚ)) : Option (List ℚ) :=
  match l with
  | [] => none
  | x :: xs => if xs.all (fun y => y.length == x.length) then some (xs.foldl addL x) else none

/-- Length of the shortest row, 0 for no rows (`zip()` of nothing is empty). -/
def minLen {α : Type} : List (List α) → Nat
  | [] => 0
  | [r] => r.length
  | r :: r' :: rs => min r.length (minLen (r' :: rs))

/-- Python `zip(*xss)`: the list of columns, truncated to the shortest row. -/
def zipStar {α : Type} (d : α) (xss : List (List α)) : List (List α) :=
  (List.range (minLen xss)).map (fun i => xss.map (fun r => r.getD i d))

/-- The error conditions of the module, by raise site. -/
inductive WSError where
  | invalidArgument      -- the two explicit `raise ValueError`s in `_weighted_sum`,
                         -- and the coefficient-count check of `evaluate_interpolation`
  | structureMismatch    -- `tf.nest.assert_same_structure`
  | preconditionViolation -- the `tf.Assert` on `t0 <= t <= t1`
  | shapeError           -- shape failures inside `w * s` / `tf.add_n`
  | packError            -- arity failure of `tf.nest.pack_sequence_as`
  | indexError           -- Python `IndexError` on `[-1]` of an empty list
  | nameError            -- Python `NameError`: `yi` never bound
  deriving DecidableEq, Repr

/-- Sequencing of a fallible map over a list (`List.mapM` in the `Option`
monad, given by its equations so that it computes transparently). -/
def omapM {α β : Type} (f : α → Option β) : List α → Option (List β)
  | [] => some []
  | x :: xs =>
    match f x with
    | none => none
    | some y =>
      match omapM f xs with
      | none => none
      | some ys => some (y :: ys)

/-- Packing the summed flat components back into `s0`'s structure
(`tf.nest.pack_sequence_as`, the return of `_weighted_sum`). -/
def packStep (s0 : Nest) (flat : List (List ℚ)) : Except WSError Nest :=
  match pack_sequence_as s0 flat with
  | none => .error .packError
  | some r => .ok r

/-- Lines 77–79 of `_weighted_sum`: `zip(*weighted_states)` to put the same
components together, `tf.add_n` each component, and pack. -/
def sumStep (s0 : Nest) (weighted_states : List (List (List ℚ))) :
    Except WSError Nest :=
  match omapM addN (zipStar ([] : List ℚ) weighted_states) with
  | none => .error .shapeError
  | some flat_final_state => packStep s0 flat_final_state

/-- The summation pipeline of lines 72–79 of `_weighted_sum`, applied to the
list of retained (weight, state) pairs: scale each flattened state by its
weight, then `sumStep`. -/
def weighted_sum_core (pairs : List (TfVal × Nest)) (s0 : Nest) :
    Except WSError Nest :=
  match omapM
      (fun p => omapM (fun s_component => tmul p.1.val s_component) (flatten p.2))
      pairs with
  | none => .error .shapeError
  | some weighted_states => sumStep s0 weighted_states

/-- `_weighted_sum(weights, list_of_states)`: zero-elided weighted sum of a
list of structured states. -/
def weighted_sum (weights : List TfVal) (list_of_states : List Nest) :
    Except WSError Nest :=
  if weights = [] then .error .invalidArgument
  else if weights.length ≠ list_of_states.length then .error .invalidArgument
  else if ¬ (list_of_states.all
      (fun s => sameStructure s (list_of_states.getLastD default))) then
    .error .structureMismatch
  else
    weighted_sum_core
      ((weights.zip list_of_states).filter (fun p => possibly_nonzero p.1))
      list_of_states.headI

/-- Modelled from the spec's words for the refinement claims: the same
summation but with no statically-zero elision — every term is included. -/
def weighted_sum_spec_full (weights : List TfVal) (list_of_states : List Nest) :
    Except WSError Nest :=
  if weights = [] then .error .invalidArgument
  else if weights.length ≠ list_of_states.length then .error .invalidArgument
  else if ¬ (list_of_states.all
      (fun s => sameStructure s (list_of_states.getLastD default))) then
    .error .structureMismatch
  else
    weighted_sum_core (weights.zip list_of_states) list_of_states.headI

/-- `_weighted_sum` applied to bare tensors, as every caller in this module
does, with the tensor payload extracted. `weighted_sum` over a list of
`Nest.tensor` states can only ever pack a `Nest.tensor` back
(`pack_tensor_structure` below), so the `.node` branch is unreachable. -/
def weighted_sum_t (weights : List TfVal) (states : List (List ℚ)) :
    Except WSError (List ℚ) :=
  match weighted_sum weights (states.map Nest.tensor) with
  | .ok (.tensor v) => .ok v
  | .ok (.node _) => .error .packError
  | .error e => .error e

/-- `_fourth_order_interpolation_coefficients(y0, y1, y_mid, f0, f1, dt)`.
States are the bare tensors its callers pass; `dt` is a scalar value
(static when a Python float, not static when a tensor), and `-2 * dt` etc.
are scalar constant multiples of it. -/
def fourth_order_interpolation_coefficients (y0 y1 y_mid f0 f1 : List ℚ)
    (dt : TfVal) : Except WSError (List (List ℚ)) := do
  let a ← weighted_sum_t
    [TfVal.constMul (-2) dt, TfVal.constMul 2 dt,
     TfVal.const (-8), TfVal.const (-8), TfVal.const 16] [f0, f1, y0, y1, y_mid]
  let b ← weighted_sum_t
    [TfVal.constMul 5 dt, TfVal.constMul (-3) dt,
     TfVal.const 18, TfVal.const 14, TfVal.const (-32)] [f0, f1, y0, y1, y_mid]
  let c ← weighted_sum_t
    [TfVal.constMul (-4) dt, TfVal.constMul 1 dt,
     TfVal.const (-11), TfVal.const (-5), TfVal.const 16] [f0, f1, y0, y1, y_mid]
  let d := scaleL dt.val.headI f0
  let e := y0
  return [a, b, c, d, e]

/-- The `for _ in range(2, len(coefficients))` loop of `evaluate_interpolation`:
append `xs[-1] * x` the given number of times. -/
def powersLoop (x : ℚ) (xs : List ℚ) : Nat → List ℚ
  | 0 => xs
  | k + 1 => powersLoop x (xs ++ [xs.getLastD 1 * x]) k

/-- `evaluate_interpolation(coefficients, t0, t1, t)`: the coefficients act as
the weights of the weighted sum, the reversed powers `x^(n-1) … x^0`
(scalar tensors) act as the states. -/
def evaluate_interpolation (coefficients : List TfVal) (t0 t1 t : ℚ) :
    Except WSError Nest :=
  if coefficients.length < 2 then .error .invalidArgument
  else if ¬ (t0 ≤ t ∧ t ≤ t1) then .error .preconditionViolation
  else
    weighted_sum coefficients
      (((powersLoop ((t - t0) / (t1 - t0)) [1, (t - t0) / (t1 - t0)]
          (coefficients.length - 2)).reverse).map (fun p => Nest.tensor [p]))

/-- `ButcherTableau`: stage offsets `a`, stage weight rows `b`, and the
solution / midpoint / error combination weights. -/
structure ButcherTableau where
  a : List ℚ
  b : List (List TfVal)
  c_sol : List TfVal
  c_mid : List TfVal
  c_error : List TfVal

/-- The FSAL test `tableau.c_sol[-1] == 0 and tableau.c_sol[:-1] == tableau.b[-1]`:
Python `[-1]` on an empty list raises `IndexError`, `and` short-circuits, and
`==` on the (scalar numeric) tableau entries compares their values. -/
def fsalCheck (tableau : ButcherTableau) : Except WSError Bool :=
  match tableau.c_sol.getLast? with
  | none => .error .indexError
  | some cLast =>
    if cLast.val ≠ [0] then .ok false
    else
      match tableau.b.getLast? with
      | none => .error .indexError
      | some bLast =>
        .ok (decide (tableau.c_sol.dropLast.map TfVal.val = bLast.map TfVal.val))

/-- The stage loop of `runge_kutta_step`: carries the stage list `k` and the
Python variable `yi` (unbound before the first iteration, hence `Option`). -/
def rkLoop (ode_fn : ℚ → List ℚ → List ℚ) (y0 : List ℚ) (t0 dt : ℚ) :
    List (ℚ × List TfVal) → List (List ℚ) → Option (List ℚ) →
    Except WSError (List (List ℚ) × Option (List ℚ))
  | [], k, yi => .ok (k, yi)
  | (alpha_i, beta_i) :: rows, k, _ =>
    match weighted_sum_t beta_i k with
    | .error e => .error e
    | .ok w =>
      let ti := t0 + alpha_i * dt
      let yi := addL y0 (scaleL dt w)
      rkLoop ode_fn y0 t0 dt rows (k ++ [ode_fn ti yi]) (some yi)

/-- `runge_kutta_step(ode_fn, y0, f0, t0, dt, tableau)`; returns
`(y1, f1, y1_error, k)`. The state tensors carry the `dt` cast to `y0`'s
dtype as plain rational arithmetic. -/
def runge_kutta_step (ode_fn : ℚ → List ℚ → List ℚ) (y0 f0 : List ℚ)
    (t0 dt : ℚ) (tableau : ButcherTableau) :
    Except WSError (List ℚ × List ℚ × List ℚ × List (List ℚ)) :=
  match rkLoop ode_fn y0 t0 dt (tableau.a.zip tableau.b) [f0] none with
  | .error e => .error e
  | .ok (k, yiLoop) =>
    match fsalCheck tableau with
    | .error e => .error e
    | .ok isFsal =>
      match (if isFsal then Except.ok yiLoop
          else
            match weighted_sum_t tableau.c_sol k with
            | .error e => .error e
            | .ok w => .ok (some (addL y0 (scaleL dt w)))) with
      | .error e => .error e
      | .ok none => .error .nameError
      | .ok (some y1) =>
        match weighted_sum_t tableau.c_error k with
        | .error e => .error e
        | .ok we => .ok (y1, k.getLastD [], scaleL dt we, k)

/-! ### Elementwise arithmetic lemmas -/

theorem length_addL (a b : List ℚ) : (addL a b).length = min a.length b.length :=
  List.length_zipWith ..

theorem length_scaleL (c : ℚ) (a : List ℚ) : (scaleL c a).length = a.length :=
  List.length_map ..

theorem addL_comm (a b : List ℚ) : addL a b = addL b a :=
  List.zipWith_comm_of_comm _ add_comm a b

theorem addL_assoc (a : List ℚ) : ∀ b c : List ℚ,
    addL (addL a b) c = addL a (addL b c) := by
  induction a with
  | nil => intro b c; rfl
  | cons x a ih =>
    intro b c
    cases b with
    | nil => rfl
    | cons y b =>
      cases c with
      | nil => rfl
      | cons z c =>
        have h := ih b c
        simp only [addL] at h ⊢
        simp [add_assoc, h]

theorem addL_replicate_left (a : List ℚ) : ∀ m : Nat, a.length ≤ m →
    addL (List.replicate m 0) a = a := by
  induction a with
  | nil => intro m _; simp [addL]
  | cons x a ih =>
    intro m hm
    cases m with
    | zero => simp at hm
    | succ m =>
      simp only [List.length_cons, Nat.succ_le_succ_iff] at hm
      have h := ih m hm
      simp only [addL] at h ⊢
      simp [List.replicate_succ, h]

theorem addL_replicate_right (a : List ℚ) (m : Nat) (h : a.length ≤ m) :
    addL a (List.replicate m 0) = a := by
  rw [addL_comm]; exact addL_replicate_left a m h

theorem scaleL_zero (a : List ℚ) : scaleL 0 a = List.replicate a.length 0 := by
  induction a with
  | nil => rfl
  | cons x a ih =>
    have h := ih
    simp only [scaleL] at h ⊢
    simp only [zero_mul] at h
    simp only [List.map_cons, List.length_cons, List.replicate_succ, zero_mul, h]

theorem scaleL_addL (c : ℚ) (a : List ℚ) : ∀ b : List ℚ,
    scaleL c (addL a b) = addL (scaleL c a) (scaleL c b) := by
  induction a with
  | nil => intro b; rfl
  | cons x a ih =>
    intro b
    cases b with
    | nil => rfl
    | cons y b =>
      have h := ih b
      simp only [scaleL, addL] at h ⊢
      simp [mul_add, h]

theorem scaleL_scaleL (k c : ℚ) (a : List ℚ) :
    scaleL k (scaleL c a) = scaleL (k * c) a := by
  simp [scaleL, Function.comp_def, mul_assoc]

theorem scaleL_replicate (c : ℚ) (m : Nat) :
    scaleL c (List.replicate m 0) = List.replicate m 0 := by
  simp [scaleL]

/-- Canonical elementwise sum of a list of `m`-vectors. -/
def vsum (m : Nat) (col : List (List ℚ)) : List ℚ :=
  col.foldr addL (List.replicate m 0)

theorem vsum_nil (m : Nat) : vsum m [] = List.replicate m 0 := rfl

theorem vsum_cons (m : Nat) (x : List ℚ) (col : List (List ℚ)) :
    vsum m (x :: col) = addL x (vsum m col) := rfl

theorem vsum_length_le (m : Nat) (col : List (List ℚ)) : (vsum m col).length ≤ m := by
  induction col with
  | nil => simp [vsum]
  | cons x col ih =>
    rw [vsum_cons, length_addL]
    omega

theorem vsum_length (m : Nat) (col : List (List ℚ)) (h : ∀ r ∈ col, r.length = m) :
    (vsum m col).length = m := by
  induction col with
  | nil => simp [vsum]
  | cons x col ih =>
    rw [vsum_cons, length_addL, h x (by simp),
      ih (fun r hr => h r (by simp [hr]))]
    omega

theorem foldl_addL_eq (col : List (List ℚ)) (m : Nat) : ∀ x : List ℚ, x.length = m →
    (∀ r ∈ col, r.length = m) → col.foldl addL x = addL x (vsum m col) := by
  induction col with
  | nil =>
    intro x hx _
    simp [vsum, addL_replicate_right x m hx.le]
  | cons y col ih =>
    intro x hx h
    have hy : y.length = m := h y (by simp)
    have hxy : (addL x y).length = m := by rw [length_addL, hx, hy]; omega
    simp only [List.foldl_cons]
    rw [ih (addL x y) hxy (fun r hr => h r (by simp [hr])), addL_assoc, vsum_cons]

theorem addN_eq_vsum (col : List (List ℚ)) (m : Nat) (hne : col ≠ [])
    (h : ∀ r ∈ col, r.length = m) : addN col = some (vsum m col) := by
  cases col with
  | nil => exact absurd rfl hne
  | cons x xs =>
    have hx : x.length = m := h x (by simp)
    have hall : xs.all (fun y => y.length == x.length) = true := by
      rw [List.all_eq_true]
      intro y hy
      rw [h y (by simp [hy]), hx]
      exact beq_self_eq_true m
    rw [addN, hall]
    simp only [if_true]
    rw [foldl_addL_eq xs m x hx (fun r hr => h r (by simp [hr])), vsum_cons]

theorem vsum_filter_zero {α : Type} (q : α → Bool) (f : α → List ℚ) (m : Nat) :
    ∀ l : List α, (∀ p ∈ l, q p = false → f p = List.replicate m 0) →
    vsum m ((l.filter q).map f) = vsum m (l.map f) := by
  intro l
  induction l with
  | nil => intro _; rfl
  | cons a l ih =>
    intro h
    have hl : ∀ p ∈ l, q p = false → f p = List.replicate m 0 :=
      fun p hp => h p (List.mem_cons_of_mem a hp)
    cases hq : q a with
    | true =>
      rw [List.filter_cons_of_pos hq]
      simp only [List.map_cons, vsum_cons, ih hl]
    | false =>
      rw [List.filter_cons_of_neg (by simp [hq])]
      simp only [List.map_cons, vsum_cons, ih hl, h a (by simp) hq]
      rw [addL_replicate_left _ m (vsum_length_le m _)]

/-- `omapM` of an everywhere-successful function is the `map` of its values. -/
theorem omapM_some {α β : Type} (f : α → Option β) (g : α → β) :
    ∀ l : List α, (∀ x ∈ l, f x = some (g x)) → omapM f l = some (l.map g) := by
  intro l
  induction l with
  | nil => intro _; rfl
  | cons x l ih =>
    intro h
    simp only [omapM, h x (List.mem_cons_self x l),
      ih (fun y hy => h y (List.mem_cons_of_mem x hy)), List.map_cons]

theorem minLen_eq {α : Type} (L : Nat) :
    ∀ xss : List (List α), xss ≠ [] → (∀ r ∈ xss, r.length = L) → minLen xss = L := by
  intro xss
  induction xss with
  | nil => intro h _; exact absurd rfl h
  | cons r xss ih =>
    intro _ h
    cases xss with
    | nil => exact h r (by simp)
    | cons r' xss' =>
      rw [minLen, ih (List.cons_ne_nil r' xss')
        (fun s hs => h s (List.mem_cons_of_mem r hs)), h r (by simp)]
      omega

theorem zipWith_eq_map_zip {α β γ : Type} (f : α → β → γ) :
    ∀ (l₁ : List α) (l₂ : List β),
    List.zipWith f l₁ l₂ = (l₁.zip l₂).map (fun p => f p.1 p.2) := by
  intro l₁
  induction l₁ with
  | nil => intro l₂; rfl
  | cons x l₁ ih =>
    intro l₂
    cases l₂ with
    | nil => rfl
    | cons y l₂ => simp [ih l₂]

/-! ### Evaluating `weighted_sum` on lists of bare tensors -/

theorem val_eq_singleton (v : TfVal) (h : v.val.length = 1) : v.val = [v.val.headI] := by
  obtain ⟨a, ha⟩ := List.length_eq_one.1 h
  rw [ha]; rfl

theorem possibly_nonzero_false_scalar (v : TfVal) (c : ℚ) (hv : v.val = [c])
    (h : possibly_nonzero v = false) : c = 0 := by
  rw [possibly_nonzero, get_static_value] at h
  by_contra hc
  cases hst : v.isStatic with
  | false => rw [hst] at h; simp at h
  | true => rw [hst] at h; simp [hv, hc] at h

theorem tmul_scalar (c : ℚ) (x : List ℚ) : tmul [c] x = some (scaleL c x) := rfl

theorem structure_check_tensors (s : List (List ℚ)) :
    (s.map Nest.tensor).all
      (fun st => sameStructure st ((s.map Nest.tensor).getLastD default)) = true := by
  rw [List.all_eq_true]
  intro st hst
  obtain ⟨t, _, rfl⟩ := List.mem_map.1 hst
  have hne : s.map Nest.tensor ≠ [] := by
    intro h; rw [h] at hst; exact List.not_mem_nil _ hst
  rw [List.getLastD_eq_getLast?, List.getLast?_eq_getLast _ hne, Option.getD_some]
  obtain ⟨u, _, hu⟩ := List.mem_map.1 (List.getLast_mem hne)
  rw [← hu]; rfl

theorem zipStar_singletons {α : Type} (d : α) (rows : List (List α)) (hne : rows ≠ [])
    (h : ∀ r ∈ rows, r.length = 1) :
    zipStar d rows = [rows.map (fun r => r.getD 0 d)] := by
  rw [zipStar, minLen_eq 1 rows hne h]
  simp [List.range_succ]

theorem pack_tensor (s0 v : List ℚ) :
    pack_sequence_as (.tensor s0) [v] = some (.tensor v) := rfl

/-- Value of the retained-pair pipeline when every pair is a scalar weight and
an `m`-vector tensor. -/
theorem weighted_sum_core_tensors (ps : List (TfVal × List ℚ)) (s0 : List ℚ) (m : Nat)
    (hw : ∀ p ∈ ps, (Prod.fst p).val.length = 1)
    (hs : ∀ p ∈ ps, (Prod.snd p).length = m)
    (hne : ps ≠ []) :
    weighted_sum_core (ps.map (Prod.map id Nest.tensor)) (.tensor s0) =
      .ok (.tensor (vsum m (ps.map (fun p => scaleL p.1.val.headI p.2)))) := by
  have hmapM : omapM
      (fun p => omapM (fun s_component => tmul p.1.val s_component) (flatten p.2))
      (ps.map (Prod.map id Nest.tensor)) =
      some ((ps.map (Prod.map id Nest.tensor)).map
        (fun p => (flatten p.2).map (fun c => scaleL p.1.val.headI c))) := by
    apply omapM_some
    intro q hq
    obtain ⟨p, hp, rfl⟩ := List.mem_map.1 hq
    cases p with
    | mk w x =>
      have h1 : w.val = [w.val.headI] := val_eq_singleton _ (hw _ hp)
      show omapM (fun c => tmul w.val c) [x] = some ([x].map (fun c => scaleL w.val.headI c))
      conv in tmul w.val _ => rw [h1]
      simp [omapM, tmul_scalar]
  have hrows : (ps.map (Prod.map id Nest.tensor)).map
      (fun p => (flatten p.2).map (fun c => scaleL p.1.val.headI c)) =
      ps.map (fun p => [scaleL p.1.val.headI p.2]) := by
    rw [List.map_map]
    apply List.map_congr_left
    intro p _
    cases p with
    | mk w x => rfl
  have hmapM2 := hmapM.trans (congrArg some hrows)
  have hrne : ps.map (fun p => [scaleL p.1.val.headI p.2]) ≠ [] := by
    simpa using hne
  have hzs := zipStar_singletons ([] : List ℚ) _ hrne
    (by intro r hr; obtain ⟨p, _, rfl⟩ := List.mem_map.1 hr; rfl)
  have hcol : (ps.map (fun p => [scaleL p.1.val.headI p.2])).map (fun r => r.getD 0 []) =
      ps.map (fun p => scaleL p.1.val.headI p.2) := by
    rw [List.map_map]; rfl
  have hcolne : ps.map (fun p => scaleL p.1.val.headI p.2) ≠ [] := by simpa using hne
  have hcollen : ∀ r ∈ ps.map (fun p => scaleL p.1.val.headI p.2), r.length = m := by
    intro r hr
    obtain ⟨p, hp, rfl⟩ := List.mem_map.1 hr
    rw [length_scaleL]
    exact hs p hp
  simp only [weighted_sum_core, hmapM2, sumStep, hzs, hcol, omapM,
    addN_eq_vsum _ m hcolne hcollen, packStep, pack_tensor]

theorem weighted_sum_eq_core (w : List TfVal) (S : List Nest)
    (h1 : w ≠ []) (h2 : w.length = S.length)
    (h3 : S.all (fun st => sameStructure st (S.getLastD default)) = true) :
    weighted_sum w S =
      weighted_sum_core ((w.zip S).filter (fun p => possibly_nonzero p.1)) S.headI := by
  rw [weighted_sum, if_neg h1, if_neg (by omega), if_neg (by rw [h3]; simp)]

theorem weighted_sum_spec_full_eq_core (w : List TfVal) (S : List Nest)
    (h1 : w ≠ []) (h2 : w.length = S.length)
    (h3 : S.all (fun st => sameStructure st (S.getLastD default)) = true) :
    weighted_sum_spec_full w S = weighted_sum_core (w.zip S) S.headI := by
  rw [weighted_sum_spec_full, if_neg h1, if_neg (by omega), if_neg (by rw [h3]; simp)]

theorem weighted_sum_t_of_ok (w : List TfVal) (s : List (List ℚ)) (v : List ℚ)
    (h : weighted_sum w (s.map Nest.tensor) = .ok (.tensor v)) :
    weighted_sum_t w s = .ok v := by
  rw [weighted_sum_t, h]

theorem weighted_sum_t_of_error (w : List TfVal) (s : List (List ℚ)) (e : WSError)
    (h : weighted_sum w (s.map Nest.tensor) = .error e) :
    weighted_sum_t w s = .error e := by
  rw [weighted_sum_t, h]

theorem headI_map_tensor (s : List (List ℚ)) (h : s ≠ []) :
    (s.map Nest.tensor).headI = .tensor s.headI := by
  cases s with
  | nil => exact absurd rfl h
  | cons x s => rfl

theorem filter_pn_map_tensor (l : List (TfVal × List ℚ)) :
    (l.map (Prod.map id Nest.tensor)).filter (fun p => possibly_nonzero p.1) =
      (l.filter (fun p => possibly_nonzero p.1)).map (Prod.map id Nest.tensor) := by
  rw [List.filter_map]
  congr 1

/-- `weighted_sum` of scalar weights over equal-length tensors, when at least
one weight is possibly nonzero: the elided sum equals the total linear
combination. -/
theorem weighted_sum_tensors_value (w : List TfVal) (s : List (List ℚ)) (m : Nat)
    (hw : ∀ v ∈ w, v.val.length = 1)
    (hs : ∀ x ∈ s, x.length = m)
    (hlen : w.length = s.length)
    (hne : w ≠ [])
    (hex : ∃ v ∈ w, possibly_nonzero v = true) :
    weighted_sum w (s.map Nest.tensor) =
      .ok (.tensor (vsum m (List.zipWith (fun v x => scaleL v.val.headI x) w s))) := by
  have hsne : s ≠ [] := by
    intro h
    rw [h] at hlen
    exact hne (List.length_eq_zero.1 hlen)
  have h2 : w.length = (s.map Nest.tensor).length := by
    rw [List.length_map]; exact hlen
  rw [weighted_sum_eq_core w (s.map Nest.tensor) hne h2 (structure_check_tensors s),
    List.zip_map_right, filter_pn_map_tensor, headI_map_tensor s hsne]
  set ps := (w.zip s).filter (fun p => possibly_nonzero p.1) with hps
  have hmem : ∀ p ∈ ps, p ∈ w.zip s := fun p hp => List.mem_of_mem_filter hp
  have hw' : ∀ p ∈ ps, (Prod.fst p).val.length = 1 := by
    intro p hp
    cases p with
    | mk a b => exact hw a (List.of_mem_zip (hmem _ hp)).1
  have hs' : ∀ p ∈ ps, (Prod.snd p).length = m := by
    intro p hp
    cases p with
    | mk a b => exact hs b (List.of_mem_zip (hmem _ hp)).2
  have hpne : ps ≠ [] := by
    obtain ⟨v, hv, hq⟩ := hex
    obtain ⟨i, hi, rfl⟩ := List.mem_iff_getElem.1 hv
    have hilt : i < (w.zip s).length := by
      rw [List.length_zip]; omega
    intro hnil
    have : (w.zip s)[i] ∈ ps := by
      apply List.mem_filter.2
      refine ⟨List.getElem_mem hilt, ?_⟩
      rw [List.getElem_zip]
      exact hq
    rw [hnil] at this
    exact List.not_mem_nil _ this
  rw [weighted_sum_core_tensors ps s.headI m hw' hs' hpne]
  have hzero : ∀ p ∈ w.zip s, (fun p => possibly_nonzero (Prod.fst p)) p = false →
      (fun p => scaleL (Prod.fst p).val.headI (Prod.snd p)) p = List.replicate m 0 := by
    intro p hp hfalse
    cases p with
    | mk a b =>
      have hv1 : a.val = [a.val.headI] := val_eq_singleton a (hw a (List.of_mem_zip hp).1)
      have hc0 : a.val.headI = 0 := possibly_nonzero_false_scalar a _ hv1 hfalse
      show scaleL a.val.headI b = _
      rw [hc0, scaleL_zero, hs b (List.of_mem_zip hp).2]
  have hval : vsum m (ps.map (fun p => scaleL p.1.val.headI p.2)) =
      vsum m (List.zipWith (fun v x => scaleL v.val.headI x) w s) := by
    rw [zipWith_eq_map_zip, hps]
    exact vsum_filter_zero (fun p => possibly_nonzero (Prod.fst p))
      (fun p => scaleL (Prod.fst p).val.headI (Prod.snd p)) m (w.zip s) hzero
  rw [hval]

/-- When every weight is statically known zero, every term is elided and
`pack_sequence_as` fails on the empty flat list. -/
theorem weighted_sum_tensors_allzero (w : List TfVal) (s : List (List ℚ))
    (hz : ∀ v ∈ w, possibly_nonzero v = false)
    (hlen : w.length = s.length)
    (hne : w ≠ []) :
    weighted_sum w (s.map Nest.tensor) = .error .packError := by
  have hsne : s ≠ [] := by
    intro h
    rw [h] at hlen
    exact hne (List.length_eq_zero.1 hlen)
  have h2 : w.length = (s.map Nest.tensor).length := by
    rw [List.length_map]; exact hlen
  rw [weighted_sum_eq_core w (s.map Nest.tensor) hne h2 (structure_check_tensors s),
    List.zip_map_right, filter_pn_map_tensor, headI_map_tensor s hsne]
  have hnil : (w.zip s).filter (fun p => possibly_nonzero p.1) = [] := by
    rw [List.filter_eq_nil_iff]
    intro p hp
    cases p with
    | mk a b => simp [hz a (List.of_mem_zip hp).1]
  rw [hnil]
  rfl

/-! ### `sameStructure` is an equivalence -/

mutual
theorem sameStructure_refl : ∀ s : Nest, sameStructure s s = true
  | .tensor _ => rfl
  | .node xs => by rw [sameStructure]; exact sameStructureList_refl xs

theorem sameStructureList_refl : ∀ xs : List Nest, sameStructureList xs xs = true
  | [] => rfl
  | x :: xs => by
    rw [sameStructureList, sameStructure_refl x, sameStructureList_refl xs]
    rfl
end

mutual
theorem sameStructure_symm : ∀ a b : Nest, sameStructure a b = sameStructure b a
  | .tensor _, .tensor _ => rfl
  | .tensor _, .node _ => rfl
  | .node _, .tensor _ => rfl
  | .node xs, .node ys => by
    rw [sameStructure, sameStructure]
    exact sameStructureList_symm xs ys

theorem sameStructureList_symm : ∀ xs ys : List Nest,
    sameStructureList xs ys = sameStructureList ys xs
  | [], [] => rfl
  | [], _ :: _ => rfl
  | _ :: _, [] => rfl
  | x :: xs, y :: ys => by
    rw [sameStructureList, sameStructureList, sameStructure_symm x y,
      sameStructureList_symm xs ys]
end

mutual
theorem sameStructure_trans : ∀ a b c : Nest, sameStructure a b = true →
    sameStructure b c = true → sameStructure a c = true
  | .tensor _, .tensor _, .tensor _, _, _ => rfl
  | .tensor _, .tensor _, .node _, _, h2 => by rw [sameStructure] at h2; exact absurd h2 (by simp)
  | .tensor _, .node _, _, h1, _ => by rw [sameStructure] at h1; exact absurd h1 (by simp)
  | .node _, .tensor _, _, h1, _ => by rw [sameStructure] at h1; exact absurd h1 (by simp)
  | .node _, .node _, .tensor _, _, h2 => by rw [sameStructure] at h2; exact absurd h2 (by simp)
  | .node xs, .node ys, .node zs, h1, h2 => by
    rw [sameStructure] at h1 h2 ⊢
    exact sameStructureList_trans xs ys zs h1 h2

theorem sameStructureList_trans : ∀ xs ys zs : List Nest, sameStructureList xs ys = true →
    sameStructureList ys zs = true → sameStructureList xs zs = true
  | [], [], [], _, _ => rfl
  | [], [], _ :: _, _, h2 => by rw [sameStructureList] at h2; exact absurd h2 (by simp)
  | [], _ :: _, _, h1, _ => by rw [sameStructureList] at h1; exact absurd h1 (by simp)
  | _ :: _, [], _, h1, _ => by rw [sameStructureList] at h1; exact absurd h1 (by simp)
  | _ :: _, _ :: _, [], _, h2 => by rw [sameStructureList] at h2; exact absurd h2 (by simp)
  | x :: xs, y :: ys, z :: zs, h1, h2 => by
    rw [sameStructureList, Bool.and_eq_true] at h1 h2 ⊢
    exact ⟨sameStructure_trans x y z h1.1 h2.1, sameStructureList_trans xs ys zs h1.2 h2.2⟩
end

/-- The in-code structure check (each state against the last) passes exactly
when every two supplied states share the same structure. -/
theorem structure_check_iff (S : List Nest) (hne : S ≠ []) :
    (S.all (fun st => sameStructure st (S.getLastD default)) = true) ↔
      (∀ s1 ∈ S, ∀ s2 ∈ S, sameStructure s1 s2 = true) := by
  have hlastmem : S.getLastD default ∈ S := by
    rw [List.getLastD_eq_getLast?, List.getLast?_eq_getLast _ hne, Option.getD_some]
    exact List.getLast_mem hne
  rw [List.all_eq_true]
  constructor
  · intro h s1 h1 s2 h2
    have t1 := h s1 h1
    have t2 := h s2 h2
    rw [sameStructure_symm] at t2
    exact sameStructure_trans s1 _ s2 t1 t2
  · intro h st hst
    exact h st hst _ hlastmem

/-! ### Which errors each stage can produce -/

theorem weighted_sum_core_shape (pairs : List (TfVal × Nest)) (s0 : Nest) :
    weighted_sum_core pairs s0 = .error .shapeError ∨
    weighted_sum_core pairs s0 = .error .packError ∨
    ∃ r, weighted_sum_core pairs s0 = .ok r := by
  rw [weighted_sum_core]
  cases h1 : omapM
      (fun p => omapM (fun s_component => tmul p.1.val s_component) (flatten p.2))
      pairs with
  | none => left; rfl
  | some rows =>
    show sumStep s0 rows = .error .shapeError ∨ sumStep s0 rows = .error .packError ∨
      ∃ r, sumStep s0 rows = .ok r
    rw [sumStep]
    cases h2 : omapM addN (zipStar ([] : List ℚ) rows) with
    | none => left; rfl
    | some flat =>
      show packStep s0 flat = .error .shapeError ∨ packStep s0 flat = .error .packError ∨
        ∃ r, packStep s0 flat = .ok r
      rw [packStep]
      cases h3 : pack_sequence_as s0 flat with
      | none => right; left; rfl
      | some r => right; right; exact ⟨r, rfl⟩

theorem weighted_sum_ia_iff (w : List TfVal) (S : List Nest) :
    weighted_sum w S = .error .invalidArgument ↔ (w = [] ∨ w.length ≠ S.length) := by
  rw [weighted_sum]
  by_cases h1 : w = []
  · rw [if_pos h1]
    simp [h1]
  · rw [if_neg h1]
    by_cases h2 : w.length ≠ S.length
    · rw [if_pos h2]
      simp [h1, h2]
    · rw [if_neg h2]
      by_cases h3 : ¬ (S.all (fun st => sameStructure st (S.getLastD default)) = true)
      · rw [if_pos (by simpa using h3)]
        simp [h1, h2]
      · rw [if_neg (by simpa using h3)]
        constructor
        · intro hcontra
          rcases weighted_sum_core_shape
              ((w.zip S).filter (fun p => possibly_nonzero p.1)) S.headI with
            h | h | ⟨r, h⟩ <;> rw [hcontra] at h <;> simp at h
        · intro hcontra
          rcases hcontra with h | h
          · exact absurd h h1
          · exact absurd h h2

theorem weighted_sum_sm_iff (w : List TfVal) (S : List Nest) :
    weighted_sum w S = .error .structureMismatch ↔
      (w ≠ [] ∧ w.length = S.length ∧
        ¬ (S.all (fun st => sameStructure st (S.getLastD default)) = true)) := by
  rw [weighted_sum]
  by_cases h1 : w = []
  · rw [if_pos h1]
    simp [h1]
  · rw [if_neg h1]
    by_cases h2 : w.length ≠ S.length
    · rw [if_pos h2]
      simp [h1, h2]
    · rw [if_neg h2]
      by_cases h3 : ¬ (S.all (fun st => sameStructure st (S.getLastD default)) = true)
      · rw [if_pos (by simpa using h3)]
        simp only [eq_self_iff_true, true_iff]
        exact ⟨h1, by omega, h3⟩
      · rw [if_neg (by simpa using h3)]
        constructor
        · intro hcontra
          rcases weighted_sum_core_shape
              ((w.zip S).filter (fun p => possibly_nonzero p.1)) S.headI with
            h | h | ⟨r, h⟩ <;> rw [hcontra] at h <;> simp at h
        · intro hcontra
          exact absurd hcontra.2.2 (by simpa using h3)

theorem weighted_sum_kinds (w : List TfVal) (S : List Nest) :
    weighted_sum w S = .error .invalidArgument ∨
    weighted_sum w S = .error .structureMismatch ∨
    weighted_sum w S = .error .shapeError ∨
    weighted_sum w S = .error .packError ∨
    ∃ r, weighted_sum w S = .ok r := by
  rw [weighted_sum]
  by_cases h1 : w = []
  · rw [if_pos h1]; left; rfl
  · rw [if_neg h1]
    by_cases h2 : w.length ≠ S.length
    · rw [if_pos h2]; left; rfl
    · rw [if_neg h2]
      by_cases h3 : ¬ (S.all (fun st => sameStructure st (S.getLastD default)) = true)
      · rw [if_pos (by simpa using h3)]; right; left; rfl
      · rw [if_neg (by simpa using h3)]
        rcases weighted_sum_core_shape
            ((w.zip S).filter (fun p => possibly_nonzero p.1)) S.headI with h | h | ⟨r, h⟩
        · right; right; left; exact h
        · right; right; right; left; exact h
        · right; right; right; right; exact ⟨r, h⟩

/-! ### Claims C7 and C8: error handling -/

/-- C7: `weighted_sum` raises `InvalidArgument` exactly when the weight or
state list is empty or their lengths differ; it raises `StructureMismatch`
exactly when the length checks pass and two supplied states differ in nested
structure; and under the preconditions (non-empty, equal-length lists of
structurally identical states) it raises neither of the two. -/
theorem claim_c7_weighted_sum_error_handling (w : List TfVal) (S : List Nest) :
    (weighted_sum w S = .error .invalidArgument ↔
      (w = [] ∨ S = [] ∨ w.length ≠ S.length))
    ∧ (weighted_sum w S = .error .structureMismatch ↔
      (w ≠ [] ∧ w.length = S.length ∧
        ∃ s1 ∈ S, ∃ s2 ∈ S, sameStructure s1 s2 = false))
    ∧ (w ≠ [] → w.length = S.length →
      (∀ s1 ∈ S, ∀ s2 ∈ S, sameStructure s1 s2 = true) →
      weighted_sum w S ≠ .error .invalidArgument ∧
      weighted_sum w S ≠ .error .structureMismatch) := by
  refine ⟨?_, ?_, ?_⟩
  · rw [weighted_sum_ia_iff]
    constructor
    · rintro (h | h)
      · exact Or.inl h
      · exact Or.inr (Or.inr h)
    · rintro (h | h | h)
      · exact Or.inl h
      · by_cases hw : w = []
        · exact Or.inl hw
        · right
          rw [h]
          simpa using fun hl => hw (List.length_eq_zero.1 hl)
      · exact Or.inr h
  · rw [weighted_sum_sm_iff]
    constructor
    · rintro ⟨h1, h2, h3⟩
      have hSne : S ≠ [] := by
        intro h
        rw [h] at h2
        exact h1 (List.length_eq_zero.1 h2)
      refine ⟨h1, h2, ?_⟩
      rw [structure_check_iff S hSne] at h3
      push_neg at h3
      obtain ⟨s1, hs1, s2, hs2, hnot⟩ := h3
      exact ⟨s1, hs1, s2, hs2, by simpa using hnot⟩
    · rintro ⟨h1, h2, s1, hs1, s2, hs2, hff⟩
      have hSne : S ≠ [] := by
        intro h
        rw [h] at hs1
        exact List.not_mem_nil _ hs1
      refine ⟨h1, h2, ?_⟩
      rw [structure_check_iff S hSne]
      intro hall
      exact absurd (hall s1 hs1 s2 hs2) (by simp [hff])
  · intro h1 h2 h3
    constructor
    · intro hcon
      rw [weighted_sum_ia_iff] at hcon
      rcases hcon with h | h
      · exact h1 h
      · exact h h2
    · intro hcon
      rw [weighted_sum_sm_iff] at hcon
      obtain ⟨_, _, hchk⟩ := hcon
      have hSne : S ≠ [] := by
        intro h
        rw [h] at h2
        exact h1 (List.length_eq_zero.1 h2)
      exact hchk ((structure_check_iff S hSne).2 h3)

/-- Witness for C7: on a concrete well-formed call the function raises
neither `InvalidArgument` nor `StructureMismatch`. -/
theorem claim_c7_witness :
    weighted_sum [TfVal.const 1] [Nest.tensor [5]] ≠ .error .invalidArgument ∧
    weighted_sum [TfVal.const 1] [Nest.tensor [5]] ≠ .error .structureMismatch :=
  (claim_c7_weighted_sum_error_handling [TfVal.const 1] [Nest.tensor [5]]).2.2
    (by decide) (by decide) (by decide)

/-- C8: for a query time outside `[t0, t1]` (with the documented coefficient
precondition met), `evaluate_interpolation` reports the precondition
violation instead of clamping or extrapolating; inside the interval no such
failure occurs. -/
theorem claim_c8_interpolation_precondition (coefficients : List TfVal)
    (t0 t1 t : ℚ) (hn : 2 ≤ coefficients.length) :
    ((t < t0 ∨ t1 < t) →
      evaluate_interpolation coefficients t0 t1 t = .error .preconditionViolation)
    ∧ (t0 ≤ t → t ≤ t1 →
      evaluate_interpolation coefficients t0 t1 t ≠ .error .preconditionViolation) := by
  constructor
  · intro hout
    rw [evaluate_interpolation, if_neg (by omega), if_pos]
    rintro ⟨hc1, hc2⟩
    rcases hout with h | h
    · linarith
    · linarith
  · intro hle1 hle2
    rw [evaluate_interpolation, if_neg (by omega), if_neg (not_not_intro ⟨hle1, hle2⟩)]
    rcases weighted_sum_kinds coefficients
        (((powersLoop ((t - t0) / (t1 - t0)) [1, (t - t0) / (t1 - t0)]
          (coefficients.length - 2)).reverse).map (fun p => Nest.tensor [p])) with
      h | h | h | h | ⟨r, h⟩ <;> rw [h] <;> simp

/-- Witness for C8: a concrete out-of-range query fails with the
precondition violation, a concrete in-range query does not. -/
theorem claim_c8_witness :
    evaluate_interpolation [⟨[1], false⟩, ⟨[0], false⟩] 0 1 2 =
      .error .preconditionViolation ∧
    evaluate_interpolation [⟨[1], false⟩, ⟨[0], false⟩] 0 1 (1/2) ≠
      .error .preconditionViolation :=
  ⟨(claim_c8_interpolation_precondition [⟨[1], false⟩, ⟨[0], false⟩] 0 1 2
      (by decide)).1 (by norm_num),
    (claim_c8_interpolation_precondition [⟨[1], false⟩, ⟨[0], false⟩] 0 1 (1/2)
      (by decide)).2 (by norm_num) (by norm_num)⟩

/-! ### Claim C10: static zero detection and its elision consequence -/

/-- C10: `_possibly_nonzero` returns `True` whenever the value has no static
value, and returns `False` exactly when the static value contains a zero
entry; consequently a statically known array-valued weight with one zero
entry has its whole term elided from `weighted_sum` even though its other
entry is nonzero (the state paired with the weight `[0, 5]` contributes
nothing at all to the result). -/
theorem claim_c10_possibly_nonzero (v wv : TfVal) (sv : List ℚ)
    (hv : get_static_value v = none) (hw : get_static_value wv = some sv) :
    possibly_nonzero v = true
    ∧ (possibly_nonzero wv = false ↔ (0 : ℚ) ∈ sv)
    ∧ weighted_sum [⟨[0, 5], true⟩, ⟨[1, 1], true⟩]
        [.tensor [10, 10], .tensor [1, 1]] = .ok (.tensor [1, 1]) := by
  refine ⟨?_, ?_, ?_⟩
  · rw [possibly_nonzero, hv]
  · rw [possibly_nonzero, hw]
    rw [List.all_eq_false]
    constructor
    · rintro ⟨x, hx, hfx⟩
      have : x = 0 := by simpa using hfx
      rw [← this]
      exact hx
    · intro h0
      exact ⟨0, h0, by simp⟩
  · norm_num [weighted_sum, weighted_sum_core, sumStep, packStep, possibly_nonzero,
      get_static_value, sameStructure, flatten, tmul, addN, addL, minLen, zipStar,
      pack_sequence_as, packAux, omapM, List.range_succ, List.filter]
    exact fun h => absurd h (by simp)

/-- Witness for C10 at concrete values. -/
theorem claim_c10_witness :
    possibly_nonzero ⟨[2], false⟩ = true
    ∧ (possibly_nonzero ⟨[0, 5], true⟩ = false ↔ (0 : ℚ) ∈ [(0 : ℚ), 5])
    ∧ weighted_sum [⟨[0, 5], true⟩, ⟨[1, 1], true⟩]
        [.tensor [10, 10], .tensor [1, 1]] = .ok (.tensor [1, 1]) :=
  claim_c10_possibly_nonzero ⟨[2], false⟩ ⟨[0, 5], true⟩ [0, 5] rfl rfl

/-! ### The powers list built by `evaluate_interpolation` -/

theorem powersLoop_length (x : ℚ) : ∀ (k : Nat) (l : List ℚ),
    (powersLoop x l k).length = l.length + k := by
  intro k
  induction k with
  | zero => intro l; rfl
  | succ k ih =>
    intro l
    rw [powersLoop, ih (l ++ [l.getLastD 1 * x]), List.length_append]
    simp only [List.length_cons, List.length_nil]
    omega

theorem powersLoop_powers (x : ℚ) : ∀ (k j : Nat),
    powersLoop x ((List.range (j + 1)).map (x ^ ·)) k =
      (List.range (j + 1 + k)).map (x ^ ·) := by
  intro k
  induction k with
  | zero => intro j; rfl
  | succ k ih =>
    intro j
    rw [powersLoop]
    have hsplit : (List.range (j + 1)).map (x ^ ·) =
        (List.range j).map (x ^ ·) ++ [x ^ j] := by
      rw [List.range_succ, List.map_append, List.map_cons, List.map_nil]
    have hlast : ((List.range (j + 1)).map (x ^ ·)).getLastD 1 = x ^ j := by
      rw [hsplit, List.getLastD_concat]
    have happ : (List.range (j + 1)).map (x ^ ·) ++
        [((List.range (j + 1)).map (x ^ ·)).getLastD 1 * x] =
        (List.range (j + 2)).map (x ^ ·) := by
      rw [hlast, ← pow_succ, List.range_succ (n := j + 1), List.map_append,
        List.map_cons, List.map_nil]
    have h2 := ih (j + 1)
    rw [show j + 1 + 1 = j + 2 by omega] at h2
    rw [happ, show j + 1 + (k + 1) = j + 2 + k by omega]
    exact h2

theorem powersLoop_init (x : ℚ) (n : Nat) (hn : 2 ≤ n) :
    powersLoop x [1, x] (n - 2) = (List.range n).map (x ^ ·) := by
  have hbase : ([1, x] : List ℚ) = (List.range 2).map (x ^ ·) := by
    simp [List.range_succ, pow_succ]
  rw [hbase]
  have := powersLoop_powers x (n - 2) 1
  rw [show (1 + 1 : Nat) = 2 from rfl] at this
  rw [this, show 2 + (n - 2) = n by omega]

/-- The sum the C5 claim states: `Σ i, coefficients[i] · x^(n−1−i)` with the
highest-degree coefficient first. -/
def poly_eval_spec (cs : List ℚ) (x : ℚ) : ℚ :=
  ((List.range cs.length).map (fun i => cs.getD i 0 * x ^ (cs.length - 1 - i))).sum

theorem poly_eval_spec_nil (x : ℚ) : poly_eval_spec [] x = 0 := rfl

theorem poly_eval_spec_cons (c : ℚ) (cs : List ℚ) (x : ℚ) :
    poly_eval_spec (c :: cs) x = c * x ^ cs.length + poly_eval_spec cs x := by
  have hmap : ∀ i ∈ List.range cs.length,
      ((fun i => (c :: cs).getD i 0 * x ^ (cs.length + 1 - 1 - i)) ∘ Nat.succ) i =
      (fun i => cs.getD i 0 * x ^ (cs.length - 1 - i)) i := by
    intro i _
    show (c :: cs).getD (i + 1) 0 * x ^ (cs.length + 1 - 1 - (i + 1)) = _
    rw [List.getD_cons_succ]
    congr 2
    omega
  rw [poly_eval_spec, poly_eval_spec, List.length_cons, List.range_succ_eq_map,
    List.map_cons, List.sum_cons, List.map_map, List.map_congr_left hmap]
  congr 1

theorem sum_zip_pow (x : ℚ) : ∀ cs : List ℚ,
    (List.zipWith (· * ·) cs (((List.range cs.length).map (x ^ ·)).reverse)).sum =
      poly_eval_spec cs x := by
  intro cs
  induction cs with
  | nil => rfl
  | cons c cs ih =>
    have hrev : (((List.range (c :: cs).length).map (x ^ ·)).reverse) =
        x ^ cs.length :: ((List.range cs.length).map (x ^ ·)).reverse := by
      rw [List.length_cons, List.range_succ, List.map_append, List.map_cons,
        List.map_nil, List.reverse_append]
      rfl
    rw [hrev, List.zipWith_cons_cons, List.sum_cons, ih, poly_eval_spec_cons]

theorem vsum_one_singletons : ∀ l : List ℚ, vsum 1 (l.map (fun q => [q])) = [l.sum] := by
  intro l
  induction l with
  | nil => rfl
  | cons q l ih =>
    rw [List.map_cons, vsum_cons, ih, List.sum_cons]
    rfl

theorem evaluate_interpolation_eq (coefficients : List TfVal) (t0 t1 t : ℚ)
    (hn : 2 ≤ coefficients.length) (h1 : t0 ≤ t) (h2 : t ≤ t1) :
    evaluate_interpolation coefficients t0 t1 t =
      weighted_sum coefficients
        (((powersLoop ((t - t0) / (t1 - t0)) [1, (t - t0) / (t1 - t0)]
          (coefficients.length - 2)).reverse).map (fun p => Nest.tensor [p])) := by
  rw [evaluate_interpolation, if_neg (by omega), if_neg (not_not_intro ⟨h1, h2⟩)]

/-! ### Claim C5: interpolation evaluation -/

theorem evaluate_states_length (x : ℚ) (n : Nat) (hn : 2 ≤ n) :
    ((powersLoop x [1, x] (n - 2)).reverse.map (fun p => Nest.tensor [p])).length = n := by
  rw [List.length_map, List.length_reverse, powersLoop_length]
  simp
  omega

/-- C5 (amended): for scalar coefficients, at least one of which is possibly
nonzero, `evaluate_interpolation` returns the claimed sum
`Σ i, coefficients[i] · x^(n−1−i)` at `x = (t−t0)/(t1−t0)`; and (for any
inputs) it raises `InvalidArgument` exactly when fewer than two coefficients
are supplied. The amendment: a statically known array-valued coefficient
mixing zero and nonzero entries is elided whole (see the counterexample), so
the summation formula is asserted for scalar coefficients that are not all
statically zero. -/
theorem claim_c5_evaluate_interpolation (coefficients : List TfVal) (t0 t1 t : ℚ)
    (hw : ∀ v ∈ coefficients, v.val.length = 1)
    (hex : ∃ v ∈ coefficients, possibly_nonzero v = true)
    (hn : 2 ≤ coefficients.length)
    (h1 : t0 ≤ t) (h2 : t ≤ t1) :
    evaluate_interpolation coefficients t0 t1 t =
      .ok (.tensor [poly_eval_spec (coefficients.map (fun v => v.val.headI))
        ((t - t0) / (t1 - t0))])
    ∧ (∀ (cs : List TfVal) (u0 u1 u : ℚ),
        (evaluate_interpolation cs u0 u1 u = .error .invalidArgument ↔
          cs.length < 2)) := by
  have hcne : coefficients ≠ [] := by
    intro h
    rw [h] at hn
    simp at hn
  constructor
  · rw [evaluate_interpolation_eq coefficients t0 t1 t hn h1 h2, powersLoop_init _ _ hn]
    set x := (t - t0) / (t1 - t0) with hx
    set n := coefficients.length with hcn
    have hstates : ((List.range n).map (x ^ ·)).reverse.map (fun p => Nest.tensor [p]) =
        (((List.range n).map (x ^ ·)).reverse.map (fun p => [p])).map Nest.tensor := by
      rw [List.map_map]
      rfl
    rw [hstates]
    set s := ((List.range n).map (x ^ ·)).reverse.map (fun p => [p]) with hs
    have hslen : s.length = n := by
      rw [hs, List.length_map, List.length_reverse, List.length_map, List.length_range]
    rw [weighted_sum_tensors_value coefficients s 1 hw
      (by intro y hy; rw [hs] at hy; obtain ⟨p, _, rfl⟩ := List.mem_map.1 hy; rfl)
      (by rw [hslen]) hcne hex]
    congr 2
    have hz1 : List.zipWith (fun v y => scaleL v.val.headI y) coefficients s =
        (List.zipWith (fun v p => v.val.headI * p) coefficients
          ((List.range n).map (x ^ ·)).reverse).map (fun q => [q]) := by
      rw [hs, List.zipWith_map_right]
      exact (List.map_zipWith (fun q => [q])
        (fun (v : TfVal) (p : ℚ) => v.val.headI * p) coefficients
        (((List.range n).map (x ^ ·)).reverse)).symm
    rw [hz1, vsum_one_singletons]
    have hz2 : List.zipWith (fun v p => v.val.headI * p) coefficients
        ((List.range n).map (x ^ ·)).reverse =
        List.zipWith (· * ·) (coefficients.map (fun v => v.val.headI))
          ((List.range n).map (x ^ ·)).reverse := by
      rw [List.zipWith_map_left]
    rw [hz2]
    have := sum_zip_pow x (coefficients.map (fun v => v.val.headI))
    rw [List.length_map, ← hcn] at this
    rw [this]
  · intro cs u0 u1 u
    constructor
    · intro h
      by_contra hcon
      push_neg at hcon
      rw [evaluate_interpolation, if_neg (by omega)] at h
      by_cases hin : ¬ (u0 ≤ u ∧ u ≤ u1)
      · rw [if_pos hin] at h
        simp at h
      · rw [if_neg hin] at h
        have hia := (weighted_sum_ia_iff cs _).1 h
        rcases hia with hh | hh
        · rw [hh] at hcon; simp at hcon
        · rw [evaluate_states_length _ _ (by omega)] at hh
          exact hh rfl
    · intro h
      rw [evaluate_interpolation, if_pos h]

/-- Counterexample to C5 as stated: with the statically known array
coefficients `[0, 5]` and `[1, 1]` on `[0, 1]` at `t = 1/2`, the first term
is elided whole (its static value contains a zero), so the result is
`[1, 1]` and not the claimed elementwise sum `[0·x + 1, 5·x + 1] = [1, 7/2]`. -/
theorem claim_c5_counterexample :
    evaluate_interpolation [⟨[0, 5], true⟩, ⟨[1, 1], true⟩] 0 1 (1/2) =
      .ok (.tensor [1, 1])
    ∧ evaluate_interpolation [⟨[0, 5], true⟩, ⟨[1, 1], true⟩] 0 1 (1/2) ≠
      .ok (.tensor [0 * (1/2 : ℚ) + 1, 5 * (1/2 : ℚ) + 1]) := by
  have h : evaluate_interpolation [⟨[0, 5], true⟩, ⟨[1, 1], true⟩] 0 1 (1/2) =
      .ok (.tensor [1, 1]) := by
    norm_num [evaluate_interpolation, powersLoop, weighted_sum, weighted_sum_core,
      sumStep, packStep, possibly_nonzero, get_static_value, sameStructure, flatten,
      tmul, addN, addL, minLen, zipStar, pack_sequence_as, packAux, omapM,
      List.range_succ, List.filter]
    exact fun hc => absurd hc (by simp)
  refine ⟨h, ?_⟩
  rw [h]
  intro hc
  have : ([1, 1] : List ℚ) = [0 * (1/2 : ℚ) + 1, 5 * (1/2 : ℚ) + 1] := by
    injection hc with h1
    injection h1
  norm_num at this

/-- Witness for the amended C5 at concrete inputs: `p(x) = 2x + 3` on `[0,1]`
at `t = 1/2`, and the `InvalidArgument` condition for a single coefficient. -/
theorem claim_c5_witness :
    evaluate_interpolation [⟨[2], false⟩, ⟨[3], true⟩] 0 1 (1/2) =
      .ok (.tensor [poly_eval_spec (([⟨[2], false⟩, ⟨[3], true⟩] : List TfVal).map
        (fun v => v.val.headI)) (((1:ℚ)/2 - 0) / (1 - 0))])
    ∧ (evaluate_interpolation [⟨[7], true⟩] 2 1 0 = .error .invalidArgument ↔
        ([(⟨[7], true⟩ : TfVal)] : List TfVal).length < 2) := by
  have h := claim_c5_evaluate_interpolation [⟨[2], false⟩, ⟨[3], true⟩] 0 1 (1/2)
    (by
      intro v hv
      rw [List.mem_cons, List.mem_cons] at hv
      rcases hv with rfl | rfl | hv
      · rfl
      · rfl
      · exact absurd hv (List.not_mem_nil v))
    ⟨⟨[2], false⟩, List.mem_cons_self _ _, rfl⟩
    (by norm_num) (by norm_num) (by norm_num)
  exact ⟨h.1, h.2 [⟨[7], true⟩] 2 1 0⟩

/-! ### Claim C2: the quartic interpolation fit -/

/-- The interpolating polynomial `p(x) = a x⁴ + b x³ + c x² + d x + e`. -/
def quartic (a b c d e x : ℚ) : ℚ := a * x ^ 4 + b * x ^ 3 + c * x ^ 2 + d * x + e

/-- The formal derivative `p'(x) = 4a x³ + 3b x² + 2c x + d` of `quartic`. -/
def quartic_deriv (a b c d x : ℚ) : ℚ := 4 * a * x ^ 3 + 3 * b * x ^ 2 + 2 * c * x + d

theorem possibly_nonzero_const (q : ℚ) (hq : q ≠ 0) :
    possibly_nonzero (TfVal.const q) = true := by
  simp [possibly_nonzero, get_static_value, TfVal.const, hq]

theorem vsum_five (m : Nat) (v1 v2 v3 v4 v5 : List ℚ) (h5 : v5.length = m) :
    vsum m [v1, v2, v3, v4, v5] = addL v1 (addL v2 (addL v3 (addL v4 v5))) := by
  rw [vsum_cons, vsum_cons, vsum_cons, vsum_cons, vsum_cons, vsum_nil,
    addL_replicate_right v5 m h5.le]

/-- The value of one `_weighted_sum` row of the quartic fit: five scalar
weights against the five state tensors. -/
theorem fit_row_value (f0 f1 y0 y1 y_mid : List ℚ) (m : Nat)
    (hf0 : f0.length = m) (hf1 : f1.length = m) (hy0 : y0.length = m)
    (hy1 : y1.length = m) (hym : y_mid.length = m)
    (w1 w2 w3 w4 w5 : TfVal)
    (hw : ∀ v ∈ [w1, w2, w3, w4, w5], v.val.length = 1)
    (hex : ∃ v ∈ [w1, w2, w3, w4, w5], possibly_nonzero v = true) :
    weighted_sum_t [w1, w2, w3, w4, w5] [f0, f1, y0, y1, y_mid] =
      .ok (addL (scaleL w1.val.headI f0) (addL (scaleL w2.val.headI f1)
        (addL (scaleL w3.val.headI y0) (addL (scaleL w4.val.headI y1)
          (scaleL w5.val.headI y_mid))))) := by
  have hs : ∀ x ∈ [f0, f1, y0, y1, y_mid], x.length = m := by
    intro x hx
    simp only [List.mem_cons, List.not_mem_nil, or_false] at hx
    rcases hx with rfl | rfl | rfl | rfl | rfl <;> assumption
  have hval := weighted_sum_tensors_value [w1, w2, w3, w4, w5] [f0, f1, y0, y1, y_mid]
    m hw hs rfl (by simp) hex
  rw [weighted_sum_t_of_ok _ _ _ hval]
  congr 1
  show vsum m [scaleL w1.val.headI f0, scaleL w2.val.headI f1, scaleL w3.val.headI y0,
    scaleL w4.val.headI y1, scaleL w5.val.headI y_mid] = _
  rw [vsum_five m _ _ _ _ _ (by rw [length_scaleL, hym])]

/-- The value of `_fourth_order_interpolation_coefficients` on `m`-vector
states with a scalar `dt` (of either staticness). -/
theorem fit_value (y0 y1 y_mid f0 f1 : List ℚ) (m : Nat)
    (hy0 : y0.length = m) (hy1 : y1.length = m) (hym : y_mid.length = m)
    (hf0 : f0.length = m) (hf1 : f1.length = m) (dtq : ℚ) (st : Bool) :
    fourth_order_interpolation_coefficients y0 y1 y_mid f0 f1 ⟨[dtq], st⟩ =
      .ok [addL (scaleL (-2 * dtq) f0) (addL (scaleL (2 * dtq) f1)
              (addL (scaleL (-8) y0) (addL (scaleL (-8) y1) (scaleL 16 y_mid)))),
            addL (scaleL (5 * dtq) f0) (addL (scaleL (-3 * dtq) f1)
              (addL (scaleL 18 y0) (addL (scaleL 14 y1) (scaleL (-32) y_mid)))),
            addL (scaleL (-4 * dtq) f0) (addL (scaleL (1 * dtq) f1)
              (addL (scaleL (-11) y0) (addL (scaleL (-5) y1) (scaleL 16 y_mid)))),
            scaleL dtq f0, y0] := by
  have hwa : ∀ v ∈ [TfVal.constMul (-2) ⟨[dtq], st⟩, TfVal.constMul 2 ⟨[dtq], st⟩,
      TfVal.const (-8), TfVal.const (-8), TfVal.const 16], v.val.length = 1 := by
    intro v hv
    simp only [List.mem_cons, List.not_mem_nil, or_false] at hv
    rcases hv with rfl | rfl | rfl | rfl | rfl <;> rfl
  have hwb : ∀ v ∈ [TfVal.constMul 5 ⟨[dtq], st⟩, TfVal.constMul (-3) ⟨[dtq], st⟩,
      TfVal.const 18, TfVal.const 14, TfVal.const (-32)], v.val.length = 1 := by
    intro v hv
    simp only [List.mem_cons, List.not_mem_nil, or_false] at hv
    rcases hv with rfl | rfl | rfl | rfl | rfl <;> rfl
  have hwc : ∀ v ∈ [TfVal.constMul (-4) ⟨[dtq], st⟩, TfVal.constMul 1 ⟨[dtq], st⟩,
      TfVal.const (-11), TfVal.const (-5), TfVal.const 16], v.val.length = 1 := by
    intro v hv
    simp only [List.mem_cons, List.not_mem_nil, or_false] at hv
    rcases hv with rfl | rfl | rfl | rfl | rfl <;> rfl
  have ha := fit_row_value f0 f1 y0 y1 y_mid m hf0 hf1 hy0 hy1 hym
    (TfVal.constMul (-2) ⟨[dtq], st⟩) (TfVal.constMul 2 ⟨[dtq], st⟩)
    (TfVal.const (-8)) (TfVal.const (-8)) (TfVal.const 16) hwa
    ⟨TfVal.const (-8), List.mem_cons_of_mem _ (List.mem_cons_of_mem _
      (List.mem_cons_self _ _)), possibly_nonzero_const _ (by norm_num)⟩
  have hb := fit_row_value f0 f1 y0 y1 y_mid m hf0 hf1 hy0 hy1 hym
    (TfVal.constMul 5 ⟨[dtq], st⟩) (TfVal.constMul (-3) ⟨[dtq], st⟩)
    (TfVal.const 18) (TfVal.const 14) (TfVal.const (-32)) hwb
    ⟨TfVal.const 18, List.mem_cons_of_mem _ (List.mem_cons_of_mem _
      (List.mem_cons_self _ _)), possibly_nonzero_const _ (by norm_num)⟩
  have hc := fit_row_value f0 f1 y0 y1 y_mid m hf0 hf1 hy0 hy1 hym
    (TfVal.constMul (-4) ⟨[dtq], st⟩) (TfVal.constMul 1 ⟨[dtq], st⟩)
    (TfVal.const (-11)) (TfVal.const (-5)) (TfVal.const 16) hwc
    ⟨TfVal.const (-11), List.mem_cons_of_mem _ (List.mem_cons_of_mem _
      (List.mem_cons_self _ _)), possibly_nonzero_const _ (by norm_num)⟩
  rw [fourth_order_interpolation_coefficients]
  simp only [TfVal.constMul, TfVal.const, List.map_cons, List.map_nil,
    List.headI] at ha hb hc ⊢
  rw [ha, hb, hc]
  rfl

/-- C2: the fit returns exactly the five stated linear combinations of the
inputs, and (at the scalar level) those formulas satisfy the five
interpolation conditions `p(0)=y0`, `p(1)=y1`, `p(1/2)=y_mid`,
`p'(0)/dt=f0`, `p'(1)/dt=f1` and are the unique quartic doing so. -/
theorem claim_c2_interpolation_coefficients
    (y0 y1 y_mid f0 f1 : List ℚ) (m : Nat)
    (hy0 : y0.length = m) (hy1 : y1.length = m) (hym : y_mid.length = m)
    (hf0 : f0.length = m) (hf1 : f1.length = m)
    (dtq : ℚ) (st : Bool) (hdt : dtq ≠ 0)
    (Y0 Y1 YM F0 F1 A B C D E : ℚ)
    (hP0 : quartic A B C D E 0 = Y0)
    (hP1 : quartic A B C D E 1 = Y1)
    (hPm : quartic A B C D E (1/2) = YM)
    (hD0 : quartic_deriv A B C D 0 / dtq = F0)
    (hD1 : quartic_deriv A B C D 1 / dtq = F1) :
    fourth_order_interpolation_coefficients y0 y1 y_mid f0 f1 ⟨[dtq], st⟩ =
      .ok [addL (scaleL (-2 * dtq) f0) (addL (scaleL (2 * dtq) f1)
              (addL (scaleL (-8) y0) (addL (scaleL (-8) y1) (scaleL 16 y_mid)))),
            addL (scaleL (5 * dtq) f0) (addL (scaleL (-3 * dtq) f1)
              (addL (scaleL 18 y0) (addL (scaleL 14 y1) (scaleL (-32) y_mid)))),
            addL (scaleL (-4 * dtq) f0) (addL (scaleL (1 * dtq) f1)
              (addL (scaleL (-11) y0) (addL (scaleL (-5) y1) (scaleL 16 y_mid)))),
            scaleL dtq f0, y0]
    ∧ (quartic (-2*dtq*F0 + 2*dtq*F1 - 8*Y0 - 8*Y1 + 16*YM)
          (5*dtq*F0 - 3*dtq*F1 + 18*Y0 + 14*Y1 - 32*YM)
          (-4*dtq*F0 + dtq*F1 - 11*Y0 - 5*Y1 + 16*YM) (dtq*F0) Y0 0 = Y0
        ∧ quartic (-2*dtq*F0 + 2*dtq*F1 - 8*Y0 - 8*Y1 + 16*YM)
          (5*dtq*F0 - 3*dtq*F1 + 18*Y0 + 14*Y1 - 32*YM)
          (-4*dtq*F0 + dtq*F1 - 11*Y0 - 5*Y1 + 16*YM) (dtq*F0) Y0 1 = Y1
        ∧ quartic (-2*dtq*F0 + 2*dtq*F1 - 8*Y0 - 8*Y1 + 16*YM)
          (5*dtq*F0 - 3*dtq*F1 + 18*Y0 + 14*Y1 - 32*YM)
          (-4*dtq*F0 + dtq*F1 - 11*Y0 - 5*Y1 + 16*YM) (dtq*F0) Y0 (1/2) = YM
        ∧ quartic_deriv (-2*dtq*F0 + 2*dtq*F1 - 8*Y0 - 8*Y1 + 16*YM)
          (5*dtq*F0 - 3*dtq*F1 + 18*Y0 + 14*Y1 - 32*YM)
          (-4*dtq*F0 + dtq*F1 - 11*Y0 - 5*Y1 + 16*YM) (dtq*F0) 0 / dtq = F0
        ∧ quartic_deriv (-2*dtq*F0 + 2*dtq*F1 - 8*Y0 - 8*Y1 + 16*YM)
          (5*dtq*F0 - 3*dtq*F1 + 18*Y0 + 14*Y1 - 32*YM)
          (-4*dtq*F0 + dtq*F1 - 11*Y0 - 5*Y1 + 16*YM) (dtq*F0) 1 / dtq = F1)
    ∧ (A = -2*dtq*F0 + 2*dtq*F1 - 8*Y0 - 8*Y1 + 16*YM
        ∧ B = 5*dtq*F0 - 3*dtq*F1 + 18*Y0 + 14*Y1 - 32*YM
        ∧ C = -4*dtq*F0 + dtq*F1 - 11*Y0 - 5*Y1 + 16*YM
        ∧ D = dtq*F0 ∧ E = Y0) := by
  simp only [quartic, quartic_deriv] at hP0 hP1 hPm hD0 hD1
  field_simp [hdt] at hD0 hD1
  refine ⟨?_, ⟨?_, ?_, ?_, ?_, ?_⟩, ?_, ?_, ?_, ?_, ?_⟩
  · exact fit_value y0 y1 y_mid f0 f1 m hy0 hy1 hym hf0 hf1 dtq st
  · rw [quartic]; ring
  · rw [quartic]; ring
  · rw [quartic]; ring
  · rw [quartic_deriv]; field_simp
  · rw [quartic_deriv]; field_simp; ring
  · linear_combination (-8) * hP1 + 16 * hPm + 2 * hD1 - 2 * hD0 - 8 * hP0
  · linear_combination 14 * hP1 - 32 * hPm - 3 * hD1 + 5 * hD0 + 18 * hP0
  · linear_combination (-5) * hP1 + 16 * hPm + hD1 - 4 * hD0 - 11 * hP0
  · linear_combination hD0
  · linear_combination hP0

/-- Witness for C2: the concrete fit with `y0=1, y1=2, y_mid=3, f0=4, f1=5`
and `dt = 1`, whose unique interpolating quartic is
`26x⁴ − 45x³ + 16x² + 4x + 1`. -/
theorem claim_c2_witness :
    fourth_order_interpolation_coefficients [1] [2] [3] [4] [5] ⟨[1], true⟩ =
      .ok [addL (scaleL (-2 * 1) [4]) (addL (scaleL (2 * 1) [5])
              (addL (scaleL (-8) [1]) (addL (scaleL (-8) [2]) (scaleL 16 [3])))),
            addL (scaleL (5 * 1) [4]) (addL (scaleL (-3 * 1) [5])
              (addL (scaleL 18 [1]) (addL (scaleL 14 [2]) (scaleL (-32) [3])))),
            addL (scaleL (-4 * 1) [4]) (addL (scaleL (1 * 1) [5])
              (addL (scaleL (-11) [1]) (addL (scaleL (-5) [2]) (scaleL 16 [3])))),
            scaleL 1 [4], [1]] :=
  (claim_c2_interpolation_coefficients [1] [2] [3] [4] [5] 1
    rfl rfl rfl rfl rfl 1 true (by norm_num)
    1 2 3 4 5 26 (-45) 16 4 1
    (by norm_num [quartic]) (by norm_num [quartic]) (by norm_num [quartic])
    (by norm_num [quartic_deriv]) (by norm_num [quartic_deriv])).1

/-! ### Claim C6: array-valued weights against scalar power states -/

theorem tmul_single (val : List ℚ) (p : ℚ) :
    tmul val [p] = some (val.map (fun c => c * p)) := by
  rw [tmul]
  by_cases h : val.length = 1
  · rw [if_pos h]
    obtain ⟨a, rfl⟩ := List.length_eq_one.1 h
    simp [mul_comm]
  · rw [if_neg h, if_pos (show ([p] : List ℚ).length = 1 from rfl)]
    rfl

/-- Value of the retained-pair pipeline when every pair is an `m`-vector
weight and a scalar (singleton) tensor state. -/
theorem weighted_sum_core_single_states (qs : List (TfVal × List ℚ)) (s0 : List ℚ)
    (m : Nat)
    (hw : ∀ q ∈ qs, (Prod.fst q).val.length = m)
    (hs : ∀ q ∈ qs, (Prod.snd q).length = 1)
    (hne : qs ≠ []) :
    weighted_sum_core (qs.map (Prod.map id Nest.tensor)) (.tensor s0) =
      .ok (.tensor (vsum m (qs.map (fun q => q.1.val.map (fun c => c * q.2.headI))))) := by
  have hmapM : omapM
      (fun p => omapM (fun s_component => tmul p.1.val s_component) (flatten p.2))
      (qs.map (Prod.map id Nest.tensor)) =
      some ((qs.map (Prod.map id Nest.tensor)).map
        (fun p => (flatten p.2).map (fun comp => p.1.val.map (fun c => c * comp.headI)))) := by
    apply omapM_some
    intro q' hq'
    obtain ⟨q, hq, rfl⟩ := List.mem_map.1 hq'
    cases q with
    | mk v t =>
      obtain ⟨a, rfl⟩ := List.length_eq_one.1 (hs _ hq)
      show omapM (fun c => tmul v.val c) [[a]] =
        some ([[a]].map (fun comp => v.val.map (fun c => c * comp.headI)))
      simp [omapM, tmul_single]
  have hrows : (qs.map (Prod.map id Nest.tensor)).map
      (fun p => (flatten p.2).map (fun comp => p.1.val.map (fun c => c * comp.headI))) =
      qs.map (fun q => [q.1.val.map (fun c => c * q.2.headI)]) := by
    rw [List.map_map]
    apply List.map_congr_left
    intro q _
    cases q with
    | mk v t => rfl
  have hmapM2 := hmapM.trans (congrArg some hrows)
  have hrne : qs.map (fun q => [q.1.val.map (fun c => c * q.2.headI)]) ≠ [] := by
    simpa using hne
  have hzs := zipStar_singletons ([] : List ℚ) _ hrne
    (by intro r hr; obtain ⟨q, _, rfl⟩ := List.mem_map.1 hr; rfl)
  have hcol : (qs.map (fun q => [q.1.val.map (fun c => c * q.2.headI)])).map
      (fun r => r.getD 0 []) = qs.map (fun q => q.1.val.map (fun c => c * q.2.headI)) := by
    rw [List.map_map]; rfl
  have hcolne : qs.map (fun q => q.1.val.map (fun c => c * q.2.headI)) ≠ [] := by
    simpa using hne
  have hcollen : ∀ r ∈ qs.map (fun q => q.1.val.map (fun c => c * q.2.headI)),
      r.length = m := by
    intro r hr
    obtain ⟨q, hq, rfl⟩ := List.mem_map.1 hr
    rw [List.length_map]
    exact hw q hq
  simp only [weighted_sum_core, hmapM2, sumStep, hzs, hcol, omapM,
    addN_eq_vsum _ m hcolne hcollen, packStep, pack_tensor]

/-- `weighted_sum` with array weights that are never statically known (or
never contain zeros) over scalar power states: every term is retained. -/
theorem weighted_sum_array_value (w : List TfVal) (ps : List ℚ) (m : Nat)
    (hw : ∀ v ∈ w, v.val.length = m)
    (hlen : w.length = ps.length)
    (hne : w ≠ [])
    (hall : ∀ v ∈ w, possibly_nonzero v = true) :
    weighted_sum w (ps.map (fun p => Nest.tensor [p])) =
      .ok (.tensor (vsum m
        (List.zipWith (fun v p => v.val.map (fun c => c * p)) w ps))) := by
  have hpne : ps ≠ [] := by
    intro h
    rw [h] at hlen
    exact hne (List.length_eq_zero.1 hlen)
  have hstates : ps.map (fun p => Nest.tensor [p]) =
      (ps.map (fun p => [p])).map Nest.tensor := by
    rw [List.map_map]; rfl
  set s : List (List ℚ) := ps.map (fun p => [p]) with hsdef
  have hslen : w.length = s.length := by rw [hsdef, List.length_map]; exact hlen
  rw [hstates, weighted_sum_eq_core w (s.map Nest.tensor) hne
    (by rw [List.length_map]; exact hslen) (structure_check_tensors s),
    List.zip_map_right, filter_pn_map_tensor, headI_map_tensor s
    (by rw [hsdef]; simpa using hpne)]
  have hfilter : (w.zip s).filter (fun p => possibly_nonzero p.1) = w.zip s := by
    apply List.filter_eq_self.2
    intro q hq
    cases q with
    | mk v t => simpa using hall v (List.of_mem_zip hq).1
  rw [hfilter, weighted_sum_core_single_states (w.zip s) s.headI m
    (by intro q hq; cases q with | mk v t => exact hw v (List.of_mem_zip hq).1)
    (by intro q hq; cases q with
        | mk v t =>
          have := (List.of_mem_zip hq).2
          rw [hsdef] at this
          obtain ⟨p, _, rfl⟩ := List.mem_map.1 this
          rfl)
    (by
      intro h
      have : (w.zip s).length = 0 := by rw [h]; rfl
      rw [List.length_zip, ← hslen] at this
      simp at this
      exact hne this)]
  congr 2
  rw [hsdef, List.zip_map_right, List.map_map]
  have : List.zipWith (fun v p => v.val.map (fun c => c * p)) w ps =
      (w.zip ps).map (fun q => q.1.val.map (fun c => c * q.2)) :=
    zipWith_eq_map_zip _ w ps
  rw [this]
  congr 1

theorem getElem_addL (a b : List ℚ) (i : Nat) (h : i < (addL a b).length) :
    (addL a b)[i] =
      a.get ⟨i, by rw [length_addL] at h; omega⟩ +
      b.get ⟨i, by rw [length_addL] at h; omega⟩ := by
  simp only [addL, List.getElem_zipWith, List.get_eq_getElem]

theorem getElem_scaleL (c : ℚ) (a : List ℚ) (i : Nat) (h : i < (scaleL c a).length) :
    (scaleL c a)[i] = c * a.get ⟨i, by rw [length_scaleL] at h; omega⟩ := by
  simp only [scaleL, List.getElem_map, List.get_eq_getElem]

/-- C6: evaluating the fitted quartic coefficients at the interval endpoints
reproduces `y0` and `y1` exactly (coefficients enter evaluation as computed,
non-static tensors). -/
theorem claim_c6_interpolation_endpoints
    (y0 y1 y_mid f0 f1 : List ℚ) (m : Nat)
    (hy0 : y0.length = m) (hy1 : y1.length = m) (hym : y_mid.length = m)
    (hf0 : f0.length = m) (hf1 : f1.length = m)
    (t0 t1 : ℚ) (h01 : t0 < t1) (st : Bool)
    (coeffs : List (List ℚ))
    (hfit : fourth_order_interpolation_coefficients y0 y1 y_mid f0 f1
      ⟨[t1 - t0], st⟩ = .ok coeffs) :
    evaluate_interpolation (coeffs.map (fun c => (⟨c, false⟩ : TfVal))) t0 t1 t0 =
      .ok (.tensor y0)
    ∧ evaluate_interpolation (coeffs.map (fun c => (⟨c, false⟩ : TfVal))) t0 t1 t1 =
      .ok (.tensor y1) := by
  have hdt : t1 - t0 ≠ 0 := sub_ne_zero.2 (ne_of_gt h01)
  rw [fit_value y0 y1 y_mid f0 f1 m hy0 hy1 hym hf0 hf1 (t1 - t0) st] at hfit
  have hco := (Except.ok.inj hfit).symm
  subst hco
  rw [List.map_cons, List.map_cons, List.map_cons, List.map_cons, List.map_cons,
    List.map_nil]
  set chA := addL (scaleL (-2 * (t1 - t0)) f0) (addL (scaleL (2 * (t1 - t0)) f1)
    (addL (scaleL (-8) y0) (addL (scaleL (-8) y1) (scaleL 16 y_mid)))) with hchA
  set chB := addL (scaleL (5 * (t1 - t0)) f0) (addL (scaleL (-3 * (t1 - t0)) f1)
    (addL (scaleL 18 y0) (addL (scaleL 14 y1) (scaleL (-32) y_mid)))) with hchB
  set chC := addL (scaleL (-4 * (t1 - t0)) f0) (addL (scaleL (1 * (t1 - t0)) f1)
    (addL (scaleL (-11) y0) (addL (scaleL (-5) y1) (scaleL 16 y_mid)))) with hchC
  set chD := scaleL (t1 - t0) f0 with hchD
  have lA : chA.length = m := by
    rw [hchA]
    simp [length_addL, length_scaleL, hy0, hy1, hym, hf0, hf1]
  have lB : chB.length = m := by
    rw [hchB]
    simp [length_addL, length_scaleL, hy0, hy1, hym, hf0, hf1]
  have lC : chC.length = m := by
    rw [hchC]
    simp [length_addL, length_scaleL, hy0, hy1, hym, hf0, hf1]
  have lD : chD.length = m := by
    rw [hchD, length_scaleL, hf0]
  set cs : List TfVal := [⟨chA, false⟩, ⟨chB, false⟩, ⟨chC, false⟩,
    ⟨chD, false⟩, ⟨y0, false⟩] with hcs
  have hlen5 : cs.length = 5 := rfl
  have hwlen : ∀ v ∈ cs, v.val.length = m := by
    intro v hv
    rw [hcs] at hv
    simp only [List.mem_cons, List.not_mem_nil, or_false] at hv
    rcases hv with rfl | rfl | rfl | rfl | rfl
    · exact lA
    · exact lB
    · exact lC
    · exact lD
    · exact hy0
  have hall : ∀ v ∈ cs, possibly_nonzero v = true := by
    intro v hv
    rw [hcs] at hv
    simp only [List.mem_cons, List.not_mem_nil, or_false] at hv
    rcases hv with rfl | rfl | rfl | rfl | rfl <;> rfl
  have hcsne : cs ≠ [] := by rw [hcs]; simp
  constructor
  · rw [evaluate_interpolation_eq cs t0 t1 t0 (by rw [hlen5]; omega) le_rfl h01.le,
      hlen5, show (t0 - t0) / (t1 - t0) = 0 by rw [sub_self, zero_div],
      powersLoop_init 0 5 (by omega),
      show (List.range 5).map ((0 : ℚ) ^ ·) = [1, 0, 0, 0, 0] by
        rw [show List.range 5 = [0, 1, 2, 3, 4] from rfl]
        norm_num,
      show ([1, 0, 0, 0, 0] : List ℚ).reverse = [0, 0, 0, 0, 1] from rfl,
      weighted_sum_array_value cs [0, 0, 0, 0, 1] m hwlen (by rw [hlen5]; rfl)
        hcsne hall]
    congr 2
    rw [hcs]
    show vsum m [chA.map (fun c => c * 0), chB.map (fun c => c * 0),
      chC.map (fun c => c * 0), chD.map (fun c => c * 0),
      y0.map (fun c => c * 1)] = y0
    rw [vsum_five m _ _ _ _ _ (by rw [List.length_map, hy0])]
    apply List.ext_getElem
    · simp [length_addL, List.length_map, lA, lB, lC, lD, hy0]
    · intro i h1 h2
      simp only [getElem_addL, List.get_eq_getElem, List.getElem_map]
      ring
  · rw [evaluate_interpolation_eq cs t0 t1 t1 (by rw [hlen5]; omega) h01.le le_rfl,
      hlen5, show (t1 - t0) / (t1 - t0) = 1 from div_self hdt,
      powersLoop_init 1 5 (by omega),
      show (List.range 5).map ((1 : ℚ) ^ ·) = [1, 1, 1, 1, 1] by
        rw [show List.range 5 = [0, 1, 2, 3, 4] from rfl]
        norm_num,
      show ([1, 1, 1, 1, 1] : List ℚ).reverse = [1, 1, 1, 1, 1] from rfl,
      weighted_sum_array_value cs [1, 1, 1, 1, 1] m hwlen (by rw [hlen5]; rfl)
        hcsne hall]
    congr 2
    rw [hcs]
    show vsum m [chA.map (fun c => c * 1), chB.map (fun c => c * 1),
      chC.map (fun c => c * 1), chD.map (fun c => c * 1),
      y0.map (fun c => c * 1)] = y1
    rw [vsum_five m _ _ _ _ _ (by rw [List.length_map, hy0])]
    rw [hchA, hchB, hchC, hchD]
    apply List.ext_getElem
    · simp [length_addL, length_scaleL, List.length_map, hy0, hy1, hym, hf0, hf1]
    · intro i h1 h2
      simp only [getElem_addL, getElem_scaleL, List.get_eq_getElem,
        List.getElem_map]
      ring

/-- Witness for C6: the fit for `y0=[1], y1=[2], y_mid=[3], f0=[4], f1=[5]`
on `[0, 2]` yields coefficients `[28, -40, 5, 8, 1]`, and evaluation at the
endpoints returns `[1]` and `[2]`. -/
theorem claim_c6_witness :
    evaluate_interpolation (([[28], [-40], [5], [8], [1]] : List (List ℚ)).map
      (fun c => (⟨c, false⟩ : TfVal))) 0 2 0 = .ok (.tensor [1])
    ∧ evaluate_interpolation (([[28], [-40], [5], [8], [1]] : List (List ℚ)).map
      (fun c => (⟨c, false⟩ : TfVal))) 0 2 2 = .ok (.tensor [2]) := by
  apply claim_c6_interpolation_endpoints [1] [2] [3] [4] [5] 1 rfl rfl rfl rfl rfl
    0 2 (by norm_num) false
  rw [fit_value [1] [2] [3] [4] [5] 1 rfl rfl rfl rfl rfl (2 - 0) false]
  norm_num [addL, scaleL]

/-! ### Claims C1 and C3: the Runge-Kutta stage loop -/

instance : Inhabited TfVal := ⟨⟨[], true⟩⟩

/-- Everything the stage loop guarantees about its result: the stage list
grows by one `ode_fn` evaluation per row, each appended entry is the
derivative at the row's stage time and stage state, and the final `yi` is
the last computed stage state. -/
theorem rkLoop_spec (ode_fn : ℚ → List ℚ → List ℚ) (y0 : List ℚ) (t0 dt : ℚ) :
    ∀ (rows : List (ℚ × List TfVal)) (k0 : List (List ℚ)) (yi0 : Option (List ℚ))
      (k' : List (List ℚ)) (yi' : Option (List ℚ)),
    rkLoop ode_fn y0 t0 dt rows k0 yi0 = .ok (k', yi') →
    k'.length = k0.length + rows.length ∧
    k'.take k0.length = k0 ∧
    (∀ j (hj : j < rows.length), ∃ w,
      weighted_sum_t (rows.get ⟨j, hj⟩).2 (k'.take (k0.length + j)) = .ok w ∧
      k'[k0.length + j]? = some (ode_fn (t0 + (rows.get ⟨j, hj⟩).1 * dt)
        (addL y0 (scaleL dt w)))) ∧
    (rows = [] → yi' = yi0) ∧
    (rows ≠ [] → ∃ w,
      weighted_sum_t (rows.getLastD default).2
        (k'.take (k0.length + rows.length - 1)) = .ok w ∧
      yi' = some (addL y0 (scaleL dt w))) := by
  intro rows
  induction rows with
  | nil =>
    intro k0 yi0 k' yi' h
    rw [rkLoop] at h
    injection h with h'
    injection h' with h1 h2
    subst h1
    subst h2
    refine ⟨by simp, List.take_length .., ?_, fun _ => rfl, fun hc => absurd rfl hc⟩
    intro j hj
    simp at hj
  | cons row rows ih =>
    intro k0 yi0 k' yi' h
    obtain ⟨alpha_i, beta_i⟩ := row
    rw [rkLoop] at h
    cases hw : weighted_sum_t beta_i k0 with
    | error e => rw [hw] at h; exact absurd h (by simp)
    | ok w =>
      rw [hw] at h
      set yi1 := addL y0 (scaleL dt w) with hyi1
      set x := ode_fn (t0 + alpha_i * dt) yi1 with hx
      have hih := ih (k0 ++ [x]) (some yi1) k' yi' h
      obtain ⟨ihlen, ihtake, ihrec, ihnil, ihlast⟩ := hih
      have hk0app : (k0 ++ [x]).length = k0.length + 1 := by
        rw [List.length_append, List.length_cons, List.length_nil]
      have htake0 : k'.take k0.length = k0 := by
        have h1 : k'.take (k0.length + 1) = k0 ++ [x] := by rw [← hk0app]; exact ihtake
        have h2 : k'.take k0.length = (k'.take (k0.length + 1)).take k0.length := by
          rw [List.take_take, min_eq_left (by omega)]
        rw [h2, h1, List.take_append_eq_append_take, List.take_length,
          Nat.sub_self, List.take_zero, List.append_nil]
      have hgetx : k'[k0.length]? = some x := by
        have h1 : k'.take (k0.length + 1) = k0 ++ [x] := by rw [← hk0app]; exact ihtake
        have h2 : k'[k0.length]? = (k'.take (k0.length + 1))[k0.length]? := by
          rw [List.getElem?_take, if_pos (by omega)]
        rw [h2, h1, List.getElem?_append_right (le_refl k0.length), Nat.sub_self]
        rfl
      refine ⟨?_, htake0, ?_, ?_, ?_⟩
      · rw [ihlen, hk0app, List.length_cons]
        omega
      · intro j hj
        cases j with
        | zero =>
          refine ⟨w, ?_, ?_⟩
          · rw [Nat.add_zero, htake0]
            exact hw
          · rw [Nat.add_zero, hgetx]
            rfl
        | succ i =>
          have hi : i < rows.length := by
            rw [List.length_cons] at hj
            omega
          obtain ⟨w', hw', hk'⟩ := ihrec i hi
          refine ⟨w', ?_, ?_⟩
          · rw [show k0.length + (i + 1) = (k0 ++ [x]).length + i by rw [hk0app]; omega]
            exact hw'
          · rw [show k0.length + (i + 1) = (k0 ++ [x]).length + i by rw [hk0app]; omega]
            exact hk'
      · intro hc
        exact absurd hc (List.cons_ne_nil _ _)
      · intro _
        by_cases hrn : rows = []
        · subst hrn
          have := ihnil rfl
          refine ⟨w, ?_, ?_⟩
          · rw [show k0.length + [(alpha_i, beta_i)].length - 1 = k0.length by simp,
              htake0]
            exact hw
          · rw [this]
        · obtain ⟨w', hw', hyi'⟩ := ihlast hrn
          refine ⟨w', ?_, hyi'⟩
          have hlst : ((alpha_i, beta_i) :: rows).getLastD default =
              rows.getLastD default := by
            rw [List.getLastD_cons, List.getLastD_eq_getLast?,
              List.getLastD_eq_getLast?, List.getLast?_eq_getLast _ hrn]
            rfl
          rw [hlst, show k0.length + ((alpha_i, beta_i) :: rows).length - 1 =
            (k0 ++ [x]).length + rows.length - 1 by
              rw [hk0app, List.length_cons]; omega]
          exact hw'

/-- Inverting a successful `runge_kutta_step`. -/
theorem runge_kutta_step_ok_inv (ode_fn : ℚ → List ℚ → List ℚ) (y0 f0 : List ℚ)
    (t0 dt : ℚ) (tableau : ButcherTableau) (y1 f1 e1 : List ℚ) (k : List (List ℚ))
    (h : runge_kutta_step ode_fn y0 f0 t0 dt tableau = .ok (y1, f1, e1, k)) :
    ∃ (yiLoop : Option (List ℚ)) (isFsal : Bool),
      rkLoop ode_fn y0 t0 dt (tableau.a.zip tableau.b) [f0] none = .ok (k, yiLoop) ∧
      fsalCheck tableau = .ok isFsal ∧
      f1 = k.getLastD [] ∧
      (∃ we, weighted_sum_t tableau.c_error k = .ok we ∧ e1 = scaleL dt we) ∧
      ((isFsal = true ∧ yiLoop = some y1) ∨
        (isFsal = false ∧ ∃ w, weighted_sum_t tableau.c_sol k = .ok w ∧
          y1 = addL y0 (scaleL dt w))) := by
  rw [runge_kutta_step] at h
  cases hloop : rkLoop ode_fn y0 t0 dt (tableau.a.zip tableau.b) [f0] none with
  | error e => rw [hloop] at h; exact absurd h (by simp)
  | ok kp =>
    obtain ⟨k0, yiLoop⟩ := kp
    rw [hloop] at h
    cases hfsal : fsalCheck tableau with
    | error e => rw [hfsal] at h; exact absurd h (by simp)
    | ok isFsal =>
      rw [hfsal] at h
      cases isFsal with
      | true =>
        simp only [if_true] at h
        cases yiLoop with
        | none => exact absurd h (by simp)
        | some yV =>
          cases hce : weighted_sum_t tableau.c_error k0 with
          | error e => rw [hce] at h; exact absurd h (by simp)
          | ok we =>
            rw [hce] at h
            simp only [Except.ok.injEq, Prod.mk.injEq] at h
            obtain ⟨hy, hf, he, hk⟩ := h
            subst hk
            exact ⟨some yV, true, rfl, rfl, hf.symm, ⟨we, hce, he.symm⟩,
              Or.inl ⟨rfl, by rw [hy]⟩⟩
      | false =>
        simp only [Bool.false_eq_true, if_false] at h
        cases hcs : weighted_sum_t tableau.c_sol k0 with
        | error e => rw [hcs] at h; exact absurd h (by simp)
        | ok w =>
          rw [hcs] at h
          cases hce : weighted_sum_t tableau.c_error k0 with
          | error e => rw [hce] at h; exact absurd h (by simp)
          | ok we =>
            rw [hce] at h
            simp only [Except.ok.injEq, Prod.mk.injEq] at h
            obtain ⟨hy, hf, he, hk⟩ := h
            subst hk
            exact ⟨yiLoop, false, rfl, rfl, hf.symm, ⟨we, hce, he.symm⟩,
              Or.inr ⟨rfl, w, hcs, hy.symm⟩⟩

/-- C1: a successful `runge_kutta_step` with `len(a) = len(b)` starts from
`k = [f0]`, appends one `ode_fn` evaluation per tableau row — strictly
sequentially, row `i` seeing exactly the previously computed stages
`k.take (i+1)` — at stage time `t0 + a[i]·dt` and stage state
`y0 + dt·weighted_sum(b[i], k)`, and returns `f1 = k[-1]` and
`y1_error = dt·weighted_sum(c_error, k)`. -/
theorem claim_c1_runge_kutta_step (ode_fn : ℚ → List ℚ → List ℚ) (y0 f0 : List ℚ)
    (t0 dt : ℚ) (tableau : ButcherTableau)
    (hab : tableau.a.length = tableau.b.length)
    (y1 f1 e1 : List ℚ) (k : List (List ℚ))
    (hrun : runge_kutta_step ode_fn y0 f0 t0 dt tableau = .ok (y1, f1, e1, k)) :
    k.length = tableau.a.length + 1
    ∧ k.headI = f0
    ∧ (∀ i (hi : i < tableau.a.length), ∃ w,
        weighted_sum_t (tableau.b.get ⟨i, by omega⟩) (k.take (i + 1)) = .ok w ∧
        k[i + 1]? = some (ode_fn (t0 + tableau.a.get ⟨i, hi⟩ * dt)
          (addL y0 (scaleL dt w))))
    ∧ f1 = k.getLastD []
    ∧ (∃ we, weighted_sum_t tableau.c_error k = .ok we ∧ e1 = scaleL dt we) := by
  obtain ⟨yiLoop, isFsal, hloop, _, hf1, herr, _⟩ :=
    runge_kutta_step_ok_inv ode_fn y0 f0 t0 dt tableau y1 f1 e1 k hrun
  obtain ⟨hlen, htake, hrec, _, _⟩ :=
    rkLoop_spec ode_fn y0 t0 dt (tableau.a.zip tableau.b) [f0] none k yiLoop hloop
  have hzlen : (tableau.a.zip tableau.b).length = tableau.a.length := by
    rw [List.length_zip, ← hab, min_self]
  refine ⟨?_, ?_, ?_, hf1, herr⟩
  · rw [hlen, hzlen]
    simp only [List.length_cons, List.length_nil]
    omega
  · have ht1 : k.take 1 = [f0] := htake
    cases k with
    | nil => simp at ht1
    | cons a as =>
      rw [List.take_succ_cons, List.take_zero] at ht1
      injection ht1 with h1 _
  · intro i hi
    have hi' : i < (tableau.a.zip tableau.b).length := by rw [hzlen]; exact hi
    obtain ⟨w, hwsum, hget⟩ := hrec i hi'
    have hrow : (tableau.a.zip tableau.b).get ⟨i, hi'⟩ =
        (tableau.a.get ⟨i, hi⟩, tableau.b.get ⟨i, by omega⟩) := List.getElem_zip ..
    rw [hrow] at hwsum hget
    rw [show ([f0] : List (List ℚ)).length + i = i + 1 by simp; omega] at hwsum hget
    exact ⟨w, hwsum, hget⟩

/-- Witness for C1: the explicit midpoint method applied to `dy/dt = y` with
`y0 = [1]`, `t0 = 0`, `dt = 1`; the step returns
`(y1, f1, y1_error, k) = ([5/2], [3/2], [-1/2], [[1], [3/2]])`. -/
theorem claim_c1_witness :
    ([[1], [3/2]] : List (List ℚ)).length = ([(1:ℚ)/2] : List ℚ).length + 1
    ∧ ([[1], [3/2]] : List (List ℚ)).headI = [1]
    ∧ ([3/2] : List ℚ) = ([[1], [3/2]] : List (List ℚ)).getLastD []
    ∧ (∃ we, weighted_sum_t [⟨[1], true⟩, ⟨[-1], true⟩] [[1], [3/2]] = .ok we ∧
        ([-1/2] : List ℚ) = scaleL 1 we) := by
  have hrun : runge_kutta_step (fun _ y => y) [1] [1] 0 1
      ⟨[1/2], [[⟨[1/2], true⟩]], [⟨[0], true⟩, ⟨[1], true⟩], [],
        [⟨[1], true⟩, ⟨[-1], true⟩]⟩ =
      .ok ([5/2], [3/2], [-1/2], [[1], [3/2]]) := by
    norm_num [runge_kutta_step, rkLoop, fsalCheck, weighted_sum_t, weighted_sum,
      weighted_sum_core, sumStep, packStep, possibly_nonzero, get_static_value,
      sameStructure, flatten, tmul, addN, addL, scaleL, minLen, zipStar,
      pack_sequence_as, packAux, omapM, List.range_succ, List.filter]
    rw [if_neg (List.cons_ne_nil _ _), if_neg (List.cons_ne_nil _ _)]
    norm_num [List.zipWith]
  have h := claim_c1_runge_kutta_step (fun _ y => y) [1] [1] 0 1
    ⟨[1/2], [[⟨[1/2], true⟩]], [⟨[0], true⟩, ⟨[1], true⟩], [],
      [⟨[1], true⟩, ⟨[-1], true⟩]⟩ rfl [5/2] [3/2] [-1/2] [[1], [3/2]] hrun
  exact ⟨h.1, h.2.1, h.2.2.2.1, h.2.2.2.2⟩

/-! ### C3: the FSAL shortcut agrees with the explicit `c_sol` weighted sum -/

theorem weighted_sum_t_ok_lengths (w : List TfVal) (s : List (List ℚ)) (v : List ℚ)
    (h : weighted_sum_t w s = .ok v) : w ≠ [] ∧ w.length = s.length := by
  constructor
  · intro hw
    have he : weighted_sum w (s.map Nest.tensor) = .error .invalidArgument :=
      (weighted_sum_ia_iff w (s.map Nest.tensor)).2 (Or.inl hw)
    rw [weighted_sum_t_of_error w s _ he] at h
    exact absurd h (by simp)
  · by_contra hlen
    have he : weighted_sum w (s.map Nest.tensor) = .error .invalidArgument :=
      (weighted_sum_ia_iff w (s.map Nest.tensor)).2
        (Or.inr (by rw [List.length_map]; exact hlen))
    rw [weighted_sum_t_of_error w s _ he] at h
    exact absurd h (by simp)

/-- Inverting a successful tensor-level `_weighted_sum` with scalar weights:
the result is the full linear combination (elision of statically-zero
weights only drops zero terms). -/
theorem weighted_sum_t_ok_value (w : List TfVal) (s : List (List ℚ)) (m : Nat)
    (v : List ℚ)
    (hw : ∀ x ∈ w, x.val.length = 1) (hs : ∀ x ∈ s, x.length = m)
    (h : weighted_sum_t w s = .ok v) :
    v = vsum m (List.zipWith (fun vv x => scaleL vv.val.headI x) w s) := by
  obtain ⟨hne, hlen⟩ := weighted_sum_t_ok_lengths w s v h
  by_cases hex : ∃ x ∈ w, possibly_nonzero x = true
  · have hv := weighted_sum_tensors_value w s m hw hs hlen hne hex
    rw [weighted_sum_t_of_ok w s _ hv] at h
    exact (Except.ok.inj h).symm
  · push_neg at hex
    have hz : ∀ x ∈ w, possibly_nonzero x = false := by
      intro x hx
      simpa using hex x hx
    have he := weighted_sum_tensors_allzero w s hz hlen hne
    rw [weighted_sum_t_of_error w s _ he] at h
    exact absurd h (by simp)

theorem vsum_append_zero (m : Nat) (L : List (List ℚ)) :
    vsum m (L ++ [List.replicate m 0]) = vsum m L := by
  rw [vsum, vsum, List.foldr_append]
  congr 1
  show addL (List.replicate m 0) (List.replicate m 0) = List.replicate m 0
  exact addL_replicate_right _ _ (by rw [List.length_replicate])

theorem zip_getLastD (a : List ℚ) (b : List (List TfVal))
    (hab : a.length = b.length) (hane : a ≠ []) (hbne : b ≠ []) :
    (a.zip b).getLastD default = (a.getLast hane, b.getLast hbne) := by
  have hda : a.dropLast.length = b.dropLast.length := by
    rw [List.length_dropLast, List.length_dropLast, hab]
  have hz : a.zip b =
      a.dropLast.zip b.dropLast ++ [(a.getLast hane, b.getLast hbne)] := by
    conv_lhs => rw [← List.dropLast_append_getLast hane,
      ← List.dropLast_append_getLast hbne]
    rw [List.zip_append hda]
    simp
  rw [hz, List.getLastD_eq_getLast?, List.getLast?_eq_getLast _ (by simp),
    Option.getD_some]
  exact List.getLast_append _

/-- The per-entry scaling in a scalar weighted sum depends only on the
weights' values, not their staticness flags. -/
theorem zipWith_scale_val_congr : ∀ (A B : List TfVal) (K : List (List ℚ)),
    A.map TfVal.val = B.map TfVal.val →
    List.zipWith (fun v x => scaleL v.val.headI x) A K =
    List.zipWith (fun v x => scaleL v.val.headI x) B K
  | [], [], _, _ => rfl
  | [], _ :: _, _, h => by simp at h
  | _ :: _, [], _, h => by simp at h
  | _ :: _, _ :: _, [], _ => rfl
  | a :: A, b :: B, x :: K, h => by
    simp only [List.map_cons, List.cons.injEq] at h
    rw [List.zipWith_cons_cons, List.zipWith_cons_cons, h.1,
      zipWith_scale_val_congr A B K h.2]

/-- C3: for a tableau satisfying the FSAL property
(`c_sol[-1] == 0` and `c_sol[:-1] == b[-1]`, with scalar weights), the `y1`
returned by `runge_kutta_step` through the shortcut branch (which reuses the
last stage state and skips the final weighted sum) equals the explicit
computation `y0 + dt·weighted_sum(c_sol, k)` in exact arithmetic. -/
theorem claim_c3_fsal_shortcut (ode_fn : ℚ → List ℚ → List ℚ) (y0 f0 : List ℚ)
    (t0 dt : ℚ) (tableau : ButcherTableau) (m : Nat)
    (hab : tableau.a.length = tableau.b.length)
    (hbne : tableau.b ≠ [])
    (hcne : tableau.c_sol ≠ [])
    (hlast0 : (tableau.c_sol.getLast hcne).val = [0])
    (hfsal : tableau.c_sol.dropLast.map TfVal.val =
      (tableau.b.getLast hbne).map TfVal.val)
    (hcs_scalar : ∀ v ∈ tableau.c_sol, v.val.length = 1)
    (hf0 : f0.length = m)
    (hode : ∀ t y, (ode_fn t y).length = m)
    (y1 f1 e1 : List ℚ) (k : List (List ℚ)) (w : List ℚ)
    (hrun : runge_kutta_step ode_fn y0 f0 t0 dt tableau = .ok (y1, f1, e1, k))
    (hws : weighted_sum_t tableau.c_sol k = .ok w) :
    y1 = addL y0 (scaleL dt w) := by
  have hane : tableau.a ≠ [] := by
    intro h
    rw [h] at hab
    exact hbne (List.length_eq_zero.1 hab.symm)
  obtain ⟨yiLoop, isFsal, hloop, hfc', hf1, herr, hcase⟩ :=
    runge_kutta_step_ok_inv ode_fn y0 f0 t0 dt tableau y1 f1 e1 k hrun
  have hfc : fsalCheck tableau = .ok true := by
    simp only [fsalCheck, List.getLast?_eq_getLast _ hcne,
      List.getLast?_eq_getLast _ hbne]
    rw [if_neg (not_not_intro hlast0)]
    simp [hfsal]
  have hisf : isFsal = true := by
    rw [hfc'] at hfc
    exact Except.ok.inj hfc
  rcases hcase with ⟨_, hyi⟩ | ⟨hf, _⟩
  swap
  · rw [hisf] at hf
    exact absurd hf (by simp)
  set rows := tableau.a.zip tableau.b with hrows
  obtain ⟨hlen, htake, hrec, hnilc, hlastc⟩ :=
    rkLoop_spec ode_fn y0 t0 dt rows [f0] none k yiLoop hloop
  have hrlen : rows.length = tableau.b.length := by
    rw [hrows, List.length_zip, hab, min_self]
  have hrne : rows ≠ [] := by
    intro h
    rw [h] at hrlen
    exact hbne (List.length_eq_zero.1 hrlen.symm)
  have hklen : k.length = rows.length + 1 := by
    rw [hlen]
    simp [Nat.add_comm]
  have hkshape : ∀ x ∈ k, x.length = m := by
    intro x hx
    obtain ⟨j, hj, rfl⟩ := List.mem_iff_getElem.1 hx
    cases j with
    | zero =>
      have htake1 : k.take 1 = [f0] := htake
      have h0 : k[0]? = some f0 := by
        have h1 : (k.take 1)[0]? = k[0]? := by
          rw [List.getElem?_take, if_pos Nat.zero_lt_one]
        rw [← h1, htake1]
        rfl
      rw [List.getElem?_eq_getElem hj] at h0
      rw [Option.some.inj h0]
      exact hf0
    | succ i =>
      have hi : i < rows.length := by omega
      obtain ⟨w', hw', hk'⟩ := hrec i hi
      have hk'' : k[i + 1]? = some (ode_fn (t0 + (rows.get ⟨i, hi⟩).1 * dt)
          (addL y0 (scaleL dt w'))) := by
        rw [show i + 1 = ([f0] : List (List ℚ)).length + i by
          simp [Nat.add_comm]]
        exact hk'
      rw [List.getElem?_eq_getElem hj] at hk''
      rw [Option.some.inj hk'']
      exact hode _ _
  obtain ⟨hcne', hcklen⟩ := weighted_sum_t_ok_lengths tableau.c_sol k w hws
  obtain ⟨wL, hwsL, hyiL⟩ := hlastc hrne
  rw [show ([f0] : List (List ℚ)).length + rows.length - 1 = rows.length by
    simp] at hwsL
  have hgl : (rows.getLastD default).2 = tableau.b.getLast hbne := by
    rw [hrows, zip_getLastD tableau.a tableau.b hab hane hbne]
  rw [hgl] at hwsL
  have hb_scalar : ∀ v ∈ tableau.b.getLast hbne, v.val.length = 1 := by
    intro v hv
    have hvv : v.val ∈ (tableau.b.getLast hbne).map TfVal.val :=
      List.mem_map_of_mem _ hv
    rw [← hfsal] at hvv
    obtain ⟨u, hu, huv⟩ := List.mem_map.1 hvv
    rw [← huv]
    exact hcs_scalar u (List.dropLast_subset _ hu)
  have hkshape' : ∀ x ∈ k.take rows.length, x.length = m :=
    fun x hx => hkshape x (List.take_subset _ _ hx)
  have hwval := weighted_sum_t_ok_value tableau.c_sol k m w hcs_scalar hkshape hws
  have hwLval := weighted_sum_t_ok_value (tableau.b.getLast hbne)
    (k.take rows.length) m wL hb_scalar hkshape' hwsL
  have hkne : k ≠ [] := by
    intro h
    rw [h] at hklen
    simp at hklen
  have hkdec : k = k.take rows.length ++ [k.getLast hkne] := by
    conv_lhs => rw [← List.dropLast_append_getLast hkne]
    congr 1
    rw [List.dropLast_eq_take, hklen]
    simp
  have hcdec : tableau.c_sol =
      tableau.c_sol.dropLast ++ [tableau.c_sol.getLast hcne] :=
    (List.dropLast_append_getLast hcne).symm
  have hAlen : tableau.c_sol.dropLast.length = (k.take rows.length).length := by
    rw [List.length_dropLast, hcklen, List.length_take]
    omega
  have hklv : (k.getLast hkne).length = m := hkshape _ (List.getLast_mem hkne)
  have hchain : vsum m (List.zipWith (fun v x => scaleL v.val.headI x)
        tableau.c_sol k) =
      vsum m (List.zipWith (fun v x => scaleL v.val.headI x)
        (tableau.b.getLast hbne) (k.take rows.length)) := by
    conv_lhs => rw [hcdec, hkdec]
    rw [List.zipWith_append _ _ _ _ _ hAlen]
    have h1 : List.zipWith (fun v x => scaleL v.val.headI x)
        [tableau.c_sol.getLast hcne] [k.getLast hkne] =
        [List.replicate m 0] := by
      show [scaleL (tableau.c_sol.getLast hcne).val.headI (k.getLast hkne)] =
        [List.replicate m 0]
      rw [hlast0]
      show [scaleL 0 (k.getLast hkne)] = [List.replicate m 0]
      rw [scaleL_zero, hklv]
    rw [h1, vsum_append_zero,
      zipWith_scale_val_congr tableau.c_sol.dropLast (tableau.b.getLast hbne)
        (k.take rows.length) hfsal]
  have hwwL : w = wL := by
    rw [hwval, hwLval, hchain]
  have hsome : some y1 = some (addL y0 (scaleL dt wL)) := by
    rw [← hyi, hyiL]
  rw [Option.some.inj hsome, hwwL]

/-- Witness for C3: a one-stage FSAL tableau (`a = [1]`, `b = [[1]]`,
`c_sol = [1, 0]`) applied to `dy/dt = 1` with `y0 = [1]`, `t0 = 0`, `dt = 1`:
the step takes the shortcut branch and returns `y1 = [2]`, which equals
`y0 + dt·weighted_sum(c_sol, k) = [1] + 1·[1]`. -/
theorem claim_c3_witness :
    runge_kutta_step (fun _ _ => ([1] : List ℚ)) [1] [1] 0 1
      ⟨[1], [[⟨[1], true⟩]], [⟨[1], true⟩, ⟨[0], true⟩], [],
        [⟨[1], true⟩, ⟨[-1], true⟩]⟩ =
      .ok ([2], [1], [0], [[1], [1]]) ∧
    weighted_sum_t [⟨[1], true⟩, ⟨[0], true⟩] [[1], [1]] = .ok [1] ∧
    ([2] : List ℚ) = addL [1] (scaleL 1 [1]) := by
  have hrun : runge_kutta_step (fun _ _ => ([1] : List ℚ)) [1] [1] 0 1
      ⟨[1], [[⟨[1], true⟩]], [⟨[1], true⟩, ⟨[0], true⟩], [],
        [⟨[1], true⟩, ⟨[-1], true⟩]⟩ =
      .ok ([2], [1], [0], [[1], [1]]) := by
    norm_num [runge_kutta_step, rkLoop, fsalCheck, weighted_sum_t, weighted_sum,
      weighted_sum_core, sumStep, packStep, possibly_nonzero, get_static_value,
      sameStructure, flatten, tmul, addN, addL, scaleL, minLen, zipStar,
      pack_sequence_as, packAux, omapM, List.range_succ, List.filter]
    rw [if_neg (List.cons_ne_nil _ _)]
  have hws : weighted_sum_t [⟨[1], true⟩, ⟨[0], true⟩] [[1], [1]] =
      .ok [1] := by
    norm_num [weighted_sum_t, weighted_sum, weighted_sum_core, sumStep,
      packStep, possibly_nonzero, get_static_value, sameStructure, flatten,
      tmul, addN, addL, scaleL, minLen, zipStar, pack_sequence_as, packAux,
      omapM, List.range_succ, List.filter]
    rw [if_neg (List.cons_ne_nil _ _)]
  refine ⟨hrun, hws, ?_⟩
  exact claim_c3_fsal_shortcut (fun _ _ => [1]) [1] [1] 0 1
    ⟨[1], [[⟨[1], true⟩]], [⟨[1], true⟩, ⟨[0], true⟩], [],
      [⟨[1], true⟩, ⟨[-1], true⟩]⟩ 1
    rfl (by simp) (by simp) rfl rfl
    (by
      intro v hv
      simp only [List.mem_cons, List.not_mem_nil, or_false] at hv
      rcases hv with rfl | rfl <;> rfl)
    rfl (fun _ _ => rfl)
    [2] [1] [0] [[1], [1]] [1] hrun hws

/-! ### C4: elision of statically-zero weights -/

/-- The unelided summation (every `w·s` term included) over scalar weights
and equal-length tensors: the full linear combination. -/
theorem weighted_sum_spec_full_tensors_value (w : List TfVal)
    (s : List (List ℚ)) (m : Nat)
    (hw : ∀ v ∈ w, v.val.length = 1)
    (hs : ∀ x ∈ s, x.length = m)
    (hlen : w.length = s.length)
    (hne : w ≠ []) :
    weighted_sum_spec_full w (s.map Nest.tensor) =
      .ok (.tensor (vsum m
        (List.zipWith (fun v x => scaleL v.val.headI x) w s))) := by
  have hsne : s ≠ [] := by
    intro h
    rw [h] at hlen
    exact hne (List.length_eq_zero.1 hlen)
  have h2 : w.length = (s.map Nest.tensor).length := by
    rw [List.length_map]; exact hlen
  rw [weighted_sum_spec_full_eq_core w (s.map Nest.tensor) hne h2
    (structure_check_tensors s), List.zip_map_right, headI_map_tensor s hsne]
  have hw' : ∀ p ∈ w.zip s, (Prod.fst p).val.length = 1 := by
    intro p hp
    cases p with
    | mk a b => exact hw a (List.of_mem_zip hp).1
  have hs' : ∀ p ∈ w.zip s, (Prod.snd p).length = m := by
    intro p hp
    cases p with
    | mk a b => exact hs b (List.of_mem_zip hp).2
  have hpne : w.zip s ≠ [] := by
    intro h
    have hl := congrArg List.length h
    rw [List.length_zip, ← hlen, min_self] at hl
    exact hne (List.length_eq_zero.1 hl)
  rw [weighted_sum_core_tensors (w.zip s) s.headI m hw' hs' hpne,
    zipWith_eq_map_zip]

/-- The all-statically-zero weight list: `_weighted_sum` does not return the
zero state of the same structure — it fails with a pack error, because every
term is elided and `tf.nest.pack_sequence_as` receives an empty flat list. -/
theorem claim_c4_counterexample :
    weighted_sum [⟨[0], true⟩] [Nest.tensor [1]] = .error .packError ∧
    weighted_sum [⟨[0], true⟩] [Nest.tensor [1]] ≠ .ok (.tensor [0]) := by
  have h : weighted_sum [⟨[0], true⟩] [Nest.tensor [1]] =
      .error .packError := by
    norm_num [weighted_sum, weighted_sum_core, sumStep, packStep,
      possibly_nonzero, get_static_value, sameStructure, flatten, tmul, addN,
      addL, scaleL, minLen, zipStar, pack_sequence_as, packAux, omapM,
      List.filter]
  refine ⟨h, ?_⟩
  rw [h]
  simp

/-! ### C9: linearity of `_weighted_sum` in the weights -/

/-- Scaling a weight by a nonzero constant does not change whether
`_possibly_nonzero` keeps or elides its term. -/
theorem possibly_nonzero_constMul (c : ℚ) (hc : c ≠ 0) (v : TfVal) :
    possibly_nonzero (TfVal.constMul c v) = possibly_nonzero v := by
  by_cases hst : v.isStatic = true
  · simp only [possibly_nonzero, get_static_value, TfVal.constMul, hst, if_true]
    induction v.val with
    | nil => rfl
    | cons x xs ih =>
      rw [List.map_cons, List.all_cons, List.all_cons, ih]
      congr 1
      rw [decide_eq_decide]
      exact mul_ne_zero_iff.trans (and_iff_right hc)
  · simp only [possibly_nonzero, get_static_value, TfVal.constMul, hst, if_false]
    rfl

theorem zipWith_scale_constMul (c : ℚ) : ∀ (w : List TfVal) (s : List (List ℚ)),
    (∀ v ∈ w, v.val.length = 1) →
    List.zipWith (fun v x => scaleL v.val.headI x) (w.map (TfVal.constMul c)) s =
    (List.zipWith (fun v x => scaleL v.val.headI x) w s).map (scaleL c)
  | [], _, _ => by simp
  | v :: w, [], _ => by simp
  | v :: w, x :: s, h => by
    rw [List.map_cons, List.zipWith_cons_cons, List.zipWith_cons_cons,
      List.map_cons,
      zipWith_scale_constMul c w s (fun u hu => h u (List.mem_cons_of_mem _ hu))]
    congr 1
    have h1 : v.val = [v.val.headI] :=
      val_eq_singleton v (h v (List.mem_cons_self ..))
    show scaleL (TfVal.constMul c v).val.headI x = scaleL c (scaleL v.val.headI x)
    rw [show (TfVal.constMul c v).val = v.val.map (fun y => c * y) from rfl, h1]
    show scaleL (c * v.val.headI) x = scaleL c (scaleL v.val.headI x)
    rw [scaleL_scaleL]

theorem vsum_map_scaleL (c : ℚ) (m : Nat) : ∀ L : List (List ℚ),
    vsum m (L.map (scaleL c)) = scaleL c (vsum m L)
  | [] => by rw [List.map_nil, vsum_nil, scaleL_replicate]
  | x :: L => by
    rw [List.map_cons, vsum_cons, vsum_cons, vsum_map_scaleL c m L, scaleL_addL]

/-- k = 0 refutes the claim as stated: scaling the weight list `[1]` by 0
gives the statically-zero weight list, on which `_weighted_sum` raises a
pack error rather than returning `0 · result = [0]`. -/
theorem claim_c9_counterexample :
    weighted_sum [⟨[1], true⟩] [Nest.tensor [2]] = .ok (.tensor [2]) ∧
    weighted_sum [TfVal.constMul 0 ⟨[1], true⟩] [Nest.tensor [2]] =
      .error .packError ∧
    weighted_sum [TfVal.constMul 0 ⟨[1], true⟩] [Nest.tensor [2]] ≠
      .ok (.tensor (scaleL 0 [2])) := by
  have h1 : weighted_sum [⟨[1], true⟩] [Nest.tensor [2]] =
      .ok (.tensor [2]) := by
    norm_num [weighted_sum, weighted_sum_core, sumStep, packStep,
      possibly_nonzero, get_static_value, sameStructure, flatten, tmul, addN,
      addL, scaleL, minLen, zipStar, pack_sequence_as, packAux, omapM,
      List.filter]
  have h2 : weighted_sum [TfVal.constMul 0 ⟨[1], true⟩] [Nest.tensor [2]] =
      .error .packError := by
    norm_num [weighted_sum, weighted_sum_core, sumStep, packStep,
      TfVal.constMul, possibly_nonzero, get_static_value, sameStructure,
      flatten, tmul, addN, addL, scaleL, minLen, zipStar, pack_sequence_as,
      packAux, omapM, List.filter]
  refine ⟨h1, h2, ?_⟩
  rw [h2]
  simp

/-! ### Commuting scalar multiplication through the summation pipeline -/

theorem omapM_congr {α β : Type} (f g : α → Option β) :
    ∀ l : List α, (∀ a ∈ l, f a = g a) → omapM f l = omapM g l := by
  intro l
  induction l with
  | nil => intro _; rfl
  | cons x l ih =>
    intro h
    rw [omapM, omapM, h x (List.mem_cons_self x l),
      ih (fun a ha => h a (List.mem_cons_of_mem x ha))]

theorem omapM_map_option {α β γ : Type} (f : α → Option β) (g : β → γ) :
    ∀ l : List α,
    omapM (fun a => (f a).map g) l = (omapM f l).map (List.map g) := by
  intro l
  induction l with
  | nil => rfl
  | cons x l ih =>
    rw [omapM, omapM, ih]
    cases f x with
    | none => rfl
    | some y =>
      cases omapM f l with
      | none => rfl
      | some ys => rfl

theorem omapM_comp_map {α β γ : Type} (h : α → β) (f : β → Option γ) :
    ∀ l : List α, omapM f (l.map h) = omapM (fun a => f (h a)) l := by
  intro l
  induction l with
  | nil => rfl
  | cons x l ih => rw [List.map_cons, omapM, omapM, ih]

theorem getD_map_scaleL (c : ℚ) : ∀ (r : List (List ℚ)) (i : Nat),
    (r.map (scaleL c)).getD i [] = scaleL c (r.getD i [])
  | [], i => by rw [List.map_nil, List.getD_nil]; rfl
  | x :: r, 0 => rfl
  | x :: r, i + 1 => by
    rw [List.map_cons, List.getD_cons_succ, List.getD_cons_succ]
    exact getD_map_scaleL c r i

theorem foldl_addL_scale (c : ℚ) : ∀ (xs : List (List ℚ)) (x : List ℚ),
    (xs.map (scaleL c)).foldl addL (scaleL c x) = scaleL c (xs.foldl addL x)
  | [], x => rfl
  | y :: ys, x => by
    rw [List.map_cons, List.foldl_cons, List.foldl_cons, ← scaleL_addL,
      foldl_addL_scale c ys (addL x y)]

/-- `tf.add_n` commutes with elementwise scaling: the shape check is
unaffected and the sum scales. -/
theorem addN_scale (c : ℚ) (col : List (List ℚ)) :
    addN (col.map (scaleL c)) = (addN col).map (scaleL c) := by
  cases col with
  | nil => rfl
  | cons x xs =>
    rw [List.map_cons, addN, addN]
    have hall : ∀ ys : List (List ℚ),
        (ys.map (scaleL c)).all (fun y => y.length == (scaleL c x).length) =
          ys.all (fun y => y.length == x.length) := by
      intro ys
      induction ys with
      | nil => rfl
      | cons y ys ih =>
        rw [List.map_cons, List.all_cons, List.all_cons, ih, length_scaleL,
          length_scaleL]
    rw [hall xs]
    by_cases hcond : xs.all (fun y => y.length == x.length) = true
    · rw [if_pos hcond, if_pos hcond, Option.map_some', foldl_addL_scale]
    · rw [if_neg hcond, if_neg hcond, Option.map_none']

theorem minLen_map_scale (c : ℚ) : ∀ rows : List (List (List ℚ)),
    minLen (rows.map (List.map (scaleL c))) = minLen rows
  | [] => rfl
  | [r] => by
    show minLen [r.map (scaleL c)] = minLen [r]
    rw [minLen, minLen, List.length_map]
  | r :: r' :: rs => by
    show minLen (r.map (scaleL c) :: ((r' :: rs).map (List.map (scaleL c)))) =
      minLen (r :: r' :: rs)
    rw [List.map_cons, minLen, minLen, List.length_map,
      show (List.map (scaleL c) r' :: List.map (List.map (scaleL c)) rs) =
        ((r' :: rs).map (List.map (scaleL c))) from rfl,
      minLen_map_scale c (r' :: rs)]

/-- `zip(*rows)` commutes with scaling every entry of every row. -/
theorem zipStar_scale (c : ℚ) (rows : List (List (List ℚ))) :
    zipStar ([] : List ℚ) (rows.map (List.map (scaleL c))) =
      (zipStar ([] : List ℚ) rows).map (List.map (scaleL c)) := by
  rw [zipStar, zipStar, minLen_map_scale, List.map_map]
  apply List.map_congr_left
  intro i _
  show (rows.map (List.map (scaleL c))).map (fun r => r.getD i []) =
    List.map (scaleL c) (rows.map (fun r => r.getD i []))
  rw [List.map_map, List.map_map]
  apply List.map_congr_left
  intro r _
  exact getD_map_scaleL c r i

theorem zipWith_mul_scale (c : ℚ) : ∀ (w x : List ℚ),
    List.zipWith (· * ·) (w.map (fun y => c * y)) x =
      (List.zipWith (· * ·) w x).map (fun y => c * y)
  | [], _ => by simp
  | _ :: _, [] => by simp
  | a :: w, b :: x => by
    rw [List.map_cons, List.zipWith_cons_cons, List.zipWith_cons_cons,
      List.map_cons, zipWith_mul_scale c w x]
    congr 1
    ring

/-- Broadcasting elementwise product commutes with scaling the weight:
branch selection is unchanged (lengths are preserved) and the product
scales. -/
theorem tmul_scale (c : ℚ) (w x : List ℚ) :
    tmul (w.map (fun y => c * y)) x = (tmul w x).map (scaleL c) := by
  rw [tmul, tmul, List.length_map]
  by_cases h1 : w.length = 1
  · rw [if_pos h1, if_pos h1, Option.map_some']
    congr 1
    cases w with
    | nil => exact absurd h1 (by simp)
    | cons a w =>
      show x.map (fun t => (c * a) * t) = scaleL c (x.map (fun t => a * t))
      rw [scaleL, List.map_map]
      apply List.map_congr_left
      intro t _
      show (c * a) * t = c * (a * t)
      ring
  · rw [if_neg h1, if_neg h1]
    by_cases h2 : x.length = 1
    · rw [if_pos h2, if_pos h2, Option.map_some']
      congr 1
      rw [List.map_map, scaleL, List.map_map]
      apply List.map_congr_left
      intro y _
      show (c * y) * x.headI = c * (y * x.headI)
      ring
    · rw [if_neg h2, if_neg h2]
      by_cases h3 : w.length = x.length
      · rw [if_pos h3, if_pos h3, Option.map_some']
        congr 1
        rw [scaleL]
        exact zipWith_mul_scale c w x
      · rw [if_neg h3, if_neg h3, Option.map_none']

mutual
/-- `c * state` for a structured state — the claim's "k multiplied by" a
state: every tensor leaf scaled elementwise. -/
def nestScale (c : ℚ) : Nest → Nest
  | .tensor t => .tensor (scaleL c t)
  | .node xs => .node (nestScaleList c xs)

/-- `nestScale` over a children list. -/
def nestScaleList (c : ℚ) : List Nest → List Nest
  | [] => []
  | x :: xs => nestScale c x :: nestScaleList c xs
end

/-- `c * result` across the `Except`: an `ok` state is scaled on every leaf,
an error is unchanged. -/
def exceptScale (c : ℚ) : Except WSError Nest → Except WSError Nest
  | .ok n => .ok (nestScale c n)
  | .error e => .error e

mutual
theorem packAux_scale (c : ℚ) : ∀ (s : Nest) (flat : List (List ℚ)),
    packAux s (flat.map (scaleL c)) =
      (packAux s flat).map (fun p => (nestScale c p.1, p.2.map (scaleL c)))
  | .tensor t, [] => rfl
  | .tensor t, f :: fs => rfl
  | .node xs, fs => by
    rw [packAux, packAux, packListAux_scale c xs fs]
    cases packListAux xs fs with
    | none => rfl
    | some p => rfl

theorem packListAux_scale (c : ℚ) : ∀ (xs : List Nest) (flat : List (List ℚ)),
    packListAux xs (flat.map (scaleL c)) =
      (packListAux xs flat).map (fun p => (nestScaleList c p.1, p.2.map (scaleL c)))
  | [], fs => rfl
  | x :: xs, fs => by
    rw [packListAux, packListAux, packAux_scale c x fs]
    cases packAux x fs with
    | none => rfl
    | some p =>
      obtain ⟨n, fs'⟩ := p
      simp only [Option.map_some']
      rw [packListAux_scale c xs fs']
      cases packListAux xs fs' with
      | none => rfl
      | some q => rfl
end

theorem pack_sequence_as_scale (c : ℚ) (s : Nest) (flat : List (List ℚ)) :
    pack_sequence_as s (flat.map (scaleL c)) =
      (pack_sequence_as s flat).map (nestScale c) := by
  rw [pack_sequence_as, pack_sequence_as, packAux_scale c s flat]
  cases packAux s flat with
  | none => rfl
  | some p =>
    obtain ⟨n, rest⟩ := p
    cases rest with
    | nil => rfl
    | cons r rs => rfl

theorem packStep_scale (c : ℚ) (s0 : Nest) (flat : List (List ℚ)) :
    packStep s0 (flat.map (scaleL c)) = exceptScale c (packStep s0 flat) := by
  rw [packStep, packStep, pack_sequence_as_scale c s0 flat]
  cases pack_sequence_as s0 flat with
  | none => rfl
  | some r => rfl

theorem sumStep_scale (c : ℚ) (s0 : Nest) (rows : List (List (List ℚ))) :
    sumStep s0 (rows.map (List.map (scaleL c))) =
      exceptScale c (sumStep s0 rows) := by
  rw [sumStep, sumStep, zipStar_scale, omapM_comp_map]
  have h1 : ∀ col ∈ zipStar ([] : List ℚ) rows,
      addN (col.map (scaleL c)) = (addN col).map (scaleL c) :=
    fun col _ => addN_scale c col
  rw [omapM_congr _ _ _ h1, omapM_map_option addN (scaleL c)]
  cases hA : omapM addN (zipStar ([] : List ℚ) rows) with
  | none => rfl
  | some flat => exact packStep_scale c s0 flat

/-- One row of the summation: scaling the weight by `c` scales every scaled
component of the flattened state by `c`. -/
theorem row_scale (c : ℚ) (v : TfVal) (s : Nest) :
    omapM (fun comp => tmul (TfVal.constMul c v).val comp) (flatten s) =
      (omapM (fun comp => tmul v.val comp) (flatten s)).map
        (List.map (scaleL c)) := by
  have h1 : ∀ comp ∈ flatten s, tmul (TfVal.constMul c v).val comp =
      (tmul v.val comp).map (scaleL c) := by
    intro comp _
    show tmul (v.val.map (fun y => c * y)) comp = _
    exact tmul_scale c v.val comp
  rw [omapM_congr _ _ _ h1]
  exact omapM_map_option (fun comp => tmul v.val comp) (scaleL c) (flatten s)

/-- The retained-pair pipeline commutes with scaling every weight. -/
theorem weighted_sum_core_scale (c : ℚ) (P : List (TfVal × Nest)) (s0 : Nest) :
    weighted_sum_core (P.map (Prod.map (TfVal.constMul c) id)) s0 =
      exceptScale c (weighted_sum_core P s0) := by
  rw [weighted_sum_core, weighted_sum_core, omapM_comp_map]
  have h1 : ∀ p ∈ P,
      omapM (fun comp => tmul ((Prod.map (TfVal.constMul c) id p).1).val comp)
        (flatten (Prod.map (TfVal.constMul c) id p).2) =
      (omapM (fun comp => tmul p.1.val comp) (flatten p.2)).map
        (List.map (scaleL c)) := by
    intro p _
    exact row_scale c p.1 p.2
  rw [omapM_congr _ _ _ h1,
    omapM_map_option
      (fun p : TfVal × Nest => omapM (fun comp => tmul p.1.val comp) (flatten p.2))
      (List.map (scaleL c))]
  cases hP : omapM (fun p => omapM (fun comp => tmul p.1.val comp) (flatten p.2))
      P with
  | none => rfl
  | some rows => exact sumStep_scale c s0 rows

/-! ### Same-shaped nests: structure and leaf lengths -/

mutual
theorem sameShape_imp_structure : ∀ a b : Nest, sameShape a b = true →
    sameStructure a b = true
  | .tensor _, .tensor _, _ => rfl
  | .node xs, .node ys, h => by
    rw [sameShape] at h
    rw [sameStructure]
    exact sameShapeList_imp_structure xs ys h
  | .tensor _, .node _, h => by simp [sameShape] at h
  | .node _, .tensor _, h => by simp [sameShape] at h

theorem sameShapeList_imp_structure : ∀ xs ys : List Nest,
    sameShapeList xs ys = true → sameStructureList xs ys = true
  | [], [], _ => rfl
  | x :: xs, y :: ys, h => by
    rw [sameShapeList, Bool.and_eq_true] at h
    rw [sameStructureList, Bool.and_eq_true]
    exact ⟨sameShape_imp_structure x y h.1, sameShapeList_imp_structure xs ys h.2⟩
  | [], _ :: _, h => by simp [sameShapeList] at h
  | _ :: _, [], h => by simp [sameShapeList] at h
end

mutual
theorem sameShape_flatten : ∀ a b : Nest, sameShape a b = true →
    (flatten a).map List.length = (flatten b).map List.length
  | .tensor s, .tensor t, h => by
    rw [sameShape, beq_iff_eq] at h
    show [s.length] = [t.length]
    rw [h]
  | .node xs, .node ys, h => by
    rw [sameShape] at h
    rw [flatten, flatten]
    exact sameShapeList_flatten xs ys h
  | .tensor _, .node _, h => by simp [sameShape] at h
  | .node _, .tensor _, h => by simp [sameShape] at h

theorem sameShapeList_flatten : ∀ xs ys : List Nest, sameShapeList xs ys = true →
    (flattenList xs).map List.length = (flattenList ys).map List.length
  | [], [], _ => rfl
  | x :: xs, y :: ys, h => by
    rw [sameShapeList, Bool.and_eq_true] at h
    rw [flattenList, flattenList, List.map_append, List.map_append,
      sameShape_flatten x y h.1, sameShapeList_flatten xs ys h.2]
  | [], _ :: _, h => by simp [sameShapeList] at h
  | _ :: _, [], h => by simp [sameShapeList] at h
end

/-- Same-shaped nests have the same leaf length at every leaf position
(out-of-range positions give the empty default on both sides). -/
theorem leaf_len_eq (a b : Nest) (h : sameShape a b = true) (i : Nat) :
    ((flatten a).getD i []).length = ((flatten b).getD i []).length := by
  have h1 : ((flatten a)[i]?).map List.length =
      ((flatten b)[i]?).map List.length := by
    rw [← List.getElem?_map, ← List.getElem?_map, sameShape_flatten a b h]
  rw [List.getD_eq_getElem?_getD, List.getD_eq_getElem?_getD]
  cases ha : (flatten a)[i]? with
  | none =>
    cases hb : (flatten b)[i]? with
    | none => rfl
    | some y =>
      rw [ha, hb] at h1
      exact absurd h1 (by simp)
  | some x =>
    cases hb : (flatten b)[i]? with
    | none =>
      rw [ha, hb] at h1
      exact absurd h1 (by simp)
    | some y =>
      rw [ha, hb, Option.map_some', Option.map_some'] at h1
      simp only [Option.getD_some]
      exact Option.some.inj h1

/-! ### C4: elision of statically-zero weights, arbitrary nested states -/

/-- With scalar weights every row of the summation succeeds: the row is the
flattened state with every component scaled by the weight's value. -/
theorem rows_scalar (P : List (TfVal × Nest))
    (hw : ∀ p ∈ P, (Prod.fst p).val.length = 1) :
    omapM (fun p => omapM (fun comp => tmul p.1.val comp) (flatten p.2)) P =
      some (P.map (fun p => (flatten p.2).map
        (fun comp => scaleL p.1.val.headI comp))) := by
  apply omapM_some
  intro p hp
  have h1 : p.1.val = [p.1.val.headI] := val_eq_singleton _ (hw p hp)
  apply omapM_some
  intro comp _
  conv_lhs => rw [h1]
  exact tmul_scalar _ _

/-- Dropping the statically-zero-weight rows does not change any column sum:
each dropped row contributes the zero vector of the column's leaf shape. -/
theorem sumStep_filter_zero (s0 : Nest) (P : List (TfVal × Nest))
    (hw : ∀ p ∈ P, (Prod.fst p).val.length = 1)
    (hsh : ∀ p ∈ P, sameShape (Prod.snd p) s0 = true)
    (hfne : P.filter (fun p => possibly_nonzero p.1) ≠ []) :
    sumStep s0 ((P.filter (fun p => possibly_nonzero p.1)).map
      (fun p => (flatten p.2).map (fun comp => scaleL p.1.val.headI comp))) =
    sumStep s0 (P.map
      (fun p => (flatten p.2).map (fun comp => scaleL p.1.val.headI comp))) := by
  have hPne : P ≠ [] := by
    intro h
    rw [h] at hfne
    exact hfne rfl
  have hsub : ∀ p ∈ P.filter (fun p => possibly_nonzero p.1), p ∈ P :=
    fun p hp => List.mem_of_mem_filter hp
  have hrowlen : ∀ p ∈ P, ((flatten p.2).map
      (fun comp => scaleL p.1.val.headI comp)).length = (flatten s0).length := by
    intro p hp
    rw [List.length_map]
    have hm := congrArg List.length (sameShape_flatten _ _ (hsh p hp))
    rwa [List.length_map, List.length_map] at hm
  have hrowsP : ∀ r ∈ P.map (fun p => (flatten p.2).map
      (fun comp => scaleL p.1.val.headI comp)), r.length = (flatten s0).length := by
    intro r hr
    obtain ⟨p, hp, rfl⟩ := List.mem_map.1 hr
    exact hrowlen p hp
  have hrowsF : ∀ r ∈ (P.filter (fun p => possibly_nonzero p.1)).map
      (fun p => (flatten p.2).map (fun comp => scaleL p.1.val.headI comp)),
      r.length = (flatten s0).length := by
    intro r hr
    obtain ⟨p, hp, rfl⟩ := List.mem_map.1 hr
    exact hrowlen p (hsub p hp)
  have hFne' : (P.filter (fun p => possibly_nonzero p.1)).map
      (fun p => (flatten p.2).map (fun comp => scaleL p.1.val.headI comp)) ≠ [] := by
    simpa using hfne
  have hPne' : P.map (fun p => (flatten p.2).map
      (fun comp => scaleL p.1.val.headI comp)) ≠ [] := by
    simpa using hPne
  have hcolumn : ∀ (Q : List (TfVal × Nest)) (i : Nat),
      (Q.map (fun p => (flatten p.2).map
        (fun comp => scaleL p.1.val.headI comp))).map (fun r => r.getD i []) =
      Q.map (fun p => scaleL p.1.val.headI ((flatten p.2).getD i [])) := by
    intro Q i
    rw [List.map_map]
    apply List.map_congr_left
    intro p _
    exact getD_map_scaleL _ _ _
  have hlenFi : ∀ (i : Nat), ∀ p ∈ P,
      (scaleL (Prod.fst p).val.headI ((flatten (Prod.snd p)).getD i [])).length =
        ((flatten s0).getD i []).length := by
    intro i p hp
    rw [length_scaleL]
    exact leaf_len_eq _ _ (hsh p hp) i
  have hzero : ∀ (i : Nat), ∀ p ∈ P,
      (fun p : TfVal × Nest => possibly_nonzero p.1) p = false →
      (fun p : TfVal × Nest =>
        scaleL p.1.val.headI ((flatten p.2).getD i [])) p =
        List.replicate ((flatten s0).getD i []).length 0 := by
    intro i p hp hfalse
    have h1 : (Prod.fst p).val = [(Prod.fst p).val.headI] :=
      val_eq_singleton _ (hw p hp)
    have h0 : (Prod.fst p).val.headI = 0 :=
      possibly_nonzero_false_scalar _ _ h1 hfalse
    show scaleL (Prod.fst p).val.headI ((flatten (Prod.snd p)).getD i []) = _
    rw [h0, scaleL_zero, leaf_len_eq _ _ (hsh p hp) i]
  rw [sumStep, sumStep, zipStar, zipStar,
    minLen_eq (flatten s0).length _ hFne' hrowsF,
    minLen_eq (flatten s0).length _ hPne' hrowsP,
    omapM_comp_map, omapM_comp_map]
  have haddF : ∀ i ∈ List.range (flatten s0).length,
      addN (((P.filter (fun p => possibly_nonzero p.1)).map
        (fun p => (flatten p.2).map
          (fun comp => scaleL p.1.val.headI comp))).map (fun r => r.getD i [])) =
      some (vsum ((flatten s0).getD i []).length
        (P.map (fun p => scaleL p.1.val.headI ((flatten p.2).getD i [])))) := by
    intro i _
    rw [hcolumn]
    rw [addN_eq_vsum _ ((flatten s0).getD i []).length (by simpa using hfne)
      (by
        intro r hr
        obtain ⟨p, hp, rfl⟩ := List.mem_map.1 hr
        exact hlenFi i p (hsub p hp))]
    rw [vsum_filter_zero (fun p => possibly_nonzero p.1)
      (fun p => scaleL p.1.val.headI ((flatten p.2).getD i []))
      ((flatten s0).getD i []).length P (hzero i)]
  have haddP : ∀ i ∈ List.range (flatten s0).length,
      addN ((P.map (fun p => (flatten p.2).map
        (fun comp => scaleL p.1.val.headI comp))).map (fun r => r.getD i [])) =
      some (vsum ((flatten s0).getD i []).length
        (P.map (fun p => scaleL p.1.val.headI ((flatten p.2).getD i [])))) := by
    intro i _
    rw [hcolumn]
    exact addN_eq_vsum _ _ (by simpa using hPne)
      (by
        intro r hr
        obtain ⟨p, hp, rfl⟩ := List.mem_map.1 hr
        exact hlenFi i p hp)
  rw [omapM_some _ _ _ haddF, omapM_some _ _ _ haddP]

/-! ### Packing an empty flat list -/

mutual
theorem packAux_nil_empty : ∀ s : Nest, flatten s = [] →
    ∃ n, packAux s [] = some (n, [])
  | .tensor t, h => absurd h (by rw [flatten]; exact List.cons_ne_nil _ _)
  | .node xs, h => by
    obtain ⟨ns, hns⟩ := packListAux_nil_empty xs (by rwa [flatten] at h)
    refine ⟨.node ns, ?_⟩
    rw [packAux]
    simp only [hns]

theorem packListAux_nil_empty : ∀ xs : List Nest, flattenList xs = [] →
    ∃ ns, packListAux xs [] = some (ns, [])
  | [], _ => ⟨[], rfl⟩
  | x :: xs, h => by
    rw [flattenList, List.append_eq_nil] at h
    obtain ⟨n, hn⟩ := packAux_nil_empty x h.1
    obtain ⟨ns, hns⟩ := packListAux_nil_empty xs h.2
    refine ⟨n :: ns, ?_⟩
    rw [packListAux]
    simp only [hn, hns]
end

mutual
/-- A structure with at least one tensor leaf cannot be packed from the
empty flat list. -/
theorem packAux_nil : ∀ s : Nest, flatten s ≠ [] → packAux s [] = none
  | .tensor t, _ => rfl
  | .node xs, h => by
    rw [packAux, packListAux_nil xs (by rwa [flatten] at h)]

theorem packListAux_nil : ∀ xs : List Nest, flattenList xs ≠ [] →
    packListAux xs [] = none
  | [], h => absurd rfl (by rwa [flattenList] at h)
  | x :: xs, h => by
    rw [packListAux]
    by_cases hx : flatten x = []
    · obtain ⟨n, hn⟩ := packAux_nil_empty x hx
      simp only [hn]
      have hxs : flattenList xs ≠ [] := by
        rw [flattenList, hx] at h
        simpa using h
      rw [packListAux_nil xs hxs]
    · rw [packAux_nil x hx]
end

/-- C4 (amended): for a non-empty, equal-length list of scalar weights and
list of same-shaped, arbitrarily nested states, the weighted sum with
statically-known-zero terms elided equals the full summation over all
terms — provided at least one weight is possibly nonzero. When every weight
is statically known to be exactly zero, every term is elided and
`_weighted_sum` raises a pack error (empty flat list) instead of returning
the all-zero state, refuting the claim's final clause. -/
theorem claim_c4_zero_weight_elision (w : List TfVal) (S : List Nest)
    (hw : ∀ v ∈ w, v.val.length = 1)
    (hsh : ∀ s ∈ S, ∀ t ∈ S, sameShape s t = true)
    (hlen : w.length = S.length)
    (hne : w ≠ []) :
    ((∃ v ∈ w, possibly_nonzero v = true) →
      weighted_sum w S = weighted_sum_spec_full w S) ∧
    ((∀ v ∈ w, possibly_nonzero v = false) → flatten S.headI ≠ [] →
      weighted_sum w S = .error .packError) := by
  have hSne : S ≠ [] := by
    intro h
    rw [h] at hlen
    exact hne (List.length_eq_zero.1 hlen)
  have hheadI : S.headI ∈ S := by
    cases S with
    | nil => exact absurd rfl hSne
    | cons a t => exact List.mem_cons_self ..
  have hlastmem : S.getLastD default ∈ S := by
    rw [List.getLastD_eq_getLast?, List.getLast?_eq_getLast _ hSne,
      Option.getD_some]
    exact List.getLast_mem hSne
  have hstr : S.all (fun st => sameStructure st (S.getLastD default)) = true := by
    rw [List.all_eq_true]
    intro s hs
    exact sameShape_imp_structure _ _ (hsh s hs _ hlastmem)
  have hwP : ∀ p ∈ w.zip S, (Prod.fst p).val.length = 1 := by
    intro p hp
    cases p with
    | mk a b => exact hw a (List.of_mem_zip hp).1
  have hshP : ∀ p ∈ w.zip S, sameShape (Prod.snd p) S.headI = true := by
    intro p hp
    cases p with
    | mk a b => exact hsh b (List.of_mem_zip hp).2 _ hheadI
  constructor
  · intro hex
    have hfne : (w.zip S).filter (fun p => possibly_nonzero p.1) ≠ [] := by
      obtain ⟨v, hv, hq⟩ := hex
      obtain ⟨i, hi, rfl⟩ := List.mem_iff_getElem.1 hv
      have hilt : i < (w.zip S).length := by
        rw [List.length_zip]
        omega
      intro hnil
      have hmem : (w.zip S)[i] ∈ (w.zip S).filter
          (fun p => possibly_nonzero p.1) := by
        apply List.mem_filter.2
        refine ⟨List.getElem_mem hilt, ?_⟩
        rw [List.getElem_zip]
        exact hq
      rw [hnil] at hmem
      exact List.not_mem_nil _ hmem
    have hwF : ∀ p ∈ (w.zip S).filter (fun p => possibly_nonzero p.1),
        (Prod.fst p).val.length = 1 :=
      fun p hp => hwP p (List.mem_of_mem_filter hp)
    rw [weighted_sum_eq_core w S hne hlen hstr,
      weighted_sum_spec_full_eq_core w S hne hlen hstr,
      weighted_sum_core, weighted_sum_core,
      rows_scalar _ hwF, rows_scalar _ hwP]
    exact sumStep_filter_zero S.headI (w.zip S) hwP hshP hfne
  · intro hz hfl
    rw [weighted_sum_eq_core w S hne hlen hstr]
    have hPf : (w.zip S).filter (fun p => possibly_nonzero p.1) = [] := by
      rw [List.filter_eq_nil_iff]
      intro p hp
      cases p with
      | mk a b => simp [hz a (List.of_mem_zip hp).1]
    rw [hPf]
    show packStep S.headI [] = .error .packError
    rw [packStep, pack_sequence_as, packAux_nil S.headI hfl]

/-- Witness for C4: scalar weights `[2, 0]` (the zero statically elided)
over two same-shaped nested states give the same result as the full
summation; all-zero weights `[0, 0]` fail with a pack error. -/
theorem claim_c4_witness :
    (weighted_sum [⟨[2], true⟩, ⟨[0], true⟩]
        [Nest.node [Nest.tensor [1], Nest.tensor [10]],
         Nest.node [Nest.tensor [3], Nest.tensor [30]]] =
      weighted_sum_spec_full [⟨[2], true⟩, ⟨[0], true⟩]
        [Nest.node [Nest.tensor [1], Nest.tensor [10]],
         Nest.node [Nest.tensor [3], Nest.tensor [30]]]) ∧
    weighted_sum [⟨[0], true⟩, ⟨[0], true⟩]
        [Nest.node [Nest.tensor [1], Nest.tensor [10]],
         Nest.node [Nest.tensor [3], Nest.tensor [30]]] = .error .packError := by
  have hsc1 : ∀ v ∈ ([⟨[2], true⟩, ⟨[0], true⟩] : List TfVal),
      v.val.length = 1 := by
    intro v hv
    simp only [List.mem_cons, List.not_mem_nil, or_false] at hv
    rcases hv with rfl | rfl <;> rfl
  have hsc0 : ∀ v ∈ ([⟨[0], true⟩, ⟨[0], true⟩] : List TfVal),
      v.val.length = 1 := by
    intro v hv
    simp only [List.mem_cons, List.not_mem_nil, or_false] at hv
    rcases hv with rfl | rfl <;> rfl
  have hsh : ∀ s ∈ [Nest.node [Nest.tensor [1], Nest.tensor [10]],
        Nest.node [Nest.tensor [3], Nest.tensor [30]]],
      ∀ t ∈ [Nest.node [Nest.tensor [1], Nest.tensor [10]],
        Nest.node [Nest.tensor [3], Nest.tensor [30]]],
      sameShape s t = true := by
    intro s hs t ht
    simp only [List.mem_cons, List.not_mem_nil, or_false] at hs ht
    rcases hs with rfl | rfl <;> rcases ht with rfl | rfl <;> rfl
  constructor
  · exact (claim_c4_zero_weight_elision _ _ hsc1 hsh rfl (by simp)).1
      ⟨⟨[2], true⟩, by simp, by norm_num [possibly_nonzero, get_static_value]⟩
  · exact (claim_c4_zero_weight_elision _ _ hsc0 hsh rfl (by simp)).2
      (by
        intro v hv
        simp only [List.mem_cons, List.not_mem_nil, or_false] at hv
        rcases hv with rfl | rfl <;>
          norm_num [possibly_nonzero, get_static_value])
      (by simp [flatten, flattenList])

/-- C9 (amended): for every NONZERO scalar `c`, `_weighted_sum` is linear in
the weights over arbitrary (nested) states: scaling every weight by `c`
scales an `ok` result by `c` on every tensor leaf, and leaves every error
outcome unchanged. At `c = 0` with static weights the original claim fails:
all scaled weights are statically zero, every term is elided, and the sum
raises a pack error instead of returning the zero state (see the
counterexample). -/
theorem claim_c9_weight_linearity (c : ℚ) (w : List TfVal) (S : List Nest)
    (hc : c ≠ 0) :
    weighted_sum (w.map (TfVal.constMul c)) S =
      exceptScale c (weighted_sum w S) := by
  rw [weighted_sum, weighted_sum]
  by_cases h1 : w = []
  · subst h1
    rw [List.map_nil, if_pos rfl]
    rfl
  · rw [if_neg (by simpa using h1), if_neg h1]
    by_cases h2 : w.length ≠ S.length
    · rw [if_pos (by rw [List.length_map]; exact h2), if_pos h2]
      rfl
    · rw [if_neg (by rw [List.length_map]; exact h2), if_neg h2]
      by_cases h3 :
          ¬ S.all (fun s => sameStructure s (S.getLastD default)) = true
      · rw [if_pos (by simpa using h3), if_pos (by simpa using h3)]
        rfl
      · rw [if_neg (by simpa using h3), if_neg (by simpa using h3)]
        rw [List.zip_map_left, List.filter_map]
        have hq : ((fun p : TfVal × Nest => possibly_nonzero p.1) ∘
            Prod.map (TfVal.constMul c) id) =
            (fun p : TfVal × Nest => possibly_nonzero p.1) := by
          funext p
          exact possibly_nonzero_constMul c hc p.1
        rw [hq]
        exact weighted_sum_core_scale c _ S.headI

/-- Witness for C9: scaling the weight `[3]` by `c = 2` over a nested state
`{[5], [7]}`: the sum `{[15], [21]}` becomes its leafwise double. -/
theorem claim_c9_witness :
    weighted_sum [⟨[3], true⟩] [Nest.node [Nest.tensor [5], Nest.tensor [7]]] =
      .ok (.node [.tensor [15], .tensor [21]]) ∧
    weighted_sum ([⟨[3], true⟩].map (TfVal.constMul 2))
        [Nest.node [Nest.tensor [5], Nest.tensor [7]]] =
      exceptScale 2 (weighted_sum [⟨[3], true⟩]
        [Nest.node [Nest.tensor [5], Nest.tensor [7]]]) := by
  refine ⟨?_, claim_c9_weight_linearity 2 [⟨[3], true⟩]
    [Nest.node [Nest.tensor [5], Nest.tensor [7]]] (by norm_num)⟩
  norm_num [weighted_sum, weighted_sum_core, sumStep, packStep,
    possibly_nonzero, get_static_value, sameStructure, sameStructureList,
    flatten, flattenList, tmul, addN, addL, scaleL, minLen, zipStar,
    pack_sequence_as, packAux, packListAux, omapM, List.range_succ,
    List.filter]

end RungeKuttaUtil
